import Mathlib

/-!
Shallow embedding of the `japanese-arrows` repository core
(`japanese_arrows/models.py`, `solver/`, `generator/`, `type_checking.py`,
`universe.py`, `rules.py`) in Lean 4, together with theorems settling the
frozen claims about the natural-language specification.

Conventions of the embedding:
* Python `set[int]` becomes `Finset ℤ`; `None` becomes `Option.none`.
* Python exceptions (KeyError, ValueError, IndexError, TypeError) are
  modelled by `Option`/`Except` failure values; a run that would raise in
  Python is a `none`/`error` run here.
* Mutation is modelled by explicit state passing: functions that mutate the
  puzzle return the updated puzzle.
* Loops whose termination is not structural carry an explicit fuel
  parameter; a Python run that terminates corresponds to any sufficiently
  large fuel.
* Wall-clock timing bookkeeping (`time.perf_counter`, the
  `rule_execution_time` dictionary) is dropped: it never influences
  control flow or any other field of the results.
* Python's `set` iteration order is modelled by a fixed deterministic
  order (row-major positions, ascending integers).
* `random.choice` / `random.sample` outcomes are modelled by an explicit
  oracle: a list of natural numbers consumed as indices.
-/

set_option maxHeartbeats 1600000

namespace JapaneseArrows

/-! ## models.py: Direction, Cell, Puzzle -/

/-- `Direction` enum of `models.py` (eight compass arrows). -/
inductive Direction where
  | north | northEast | east | southEast | south | southWest | west | northWest
  deriving DecidableEq, Repr

/-- `Direction.delta`: row/column delta of each direction. -/
def Direction.delta : Direction → ℤ × ℤ
  | .north => (-1, 0)
  | .northEast => (-1, 1)
  | .east => (0, 1)
  | .southEast => (1, 1)
  | .south => (1, 0)
  | .southWest => (1, -1)
  | .west => (0, -1)
  | .northWest => (-1, -1)

/-- The arrow glyph of each direction (`Direction`'s enum value). -/
def Direction.glyph : Direction → Char
  | .north => '↑'
  | .northEast => '↗'
  | .east => '→'
  | .southEast => '↘'
  | .south => '↓'
  | .southWest => '↙'
  | .west => '←'
  | .northWest => '↖'

/-- `Direction(ch)`: parse an arrow glyph, failing on any other char. -/
def Direction.ofGlyph (ch : Char) : Option Direction :=
  if ch = '↑' then some .north
  else if ch = '↗' then some .northEast
  else if ch = '→' then some .east
  else if ch = '↘' then some .southEast
  else if ch = '↓' then some .south
  else if ch = '↙' then some .southWest
  else if ch = '←' then some .west
  else if ch = '↖' then some .northWest
  else none

/-- The `opposites` table used by `Generator._flip_outward_arrows`. -/
def Direction.opposite : Direction → Direction
  | .north => .south
  | .south => .north
  | .east => .west
  | .west => .east
  | .northEast => .southWest
  | .southWest => .northEast
  | .southEast => .northWest
  | .northWest => .southEast

/-- `Cell` dataclass: direction, optional committed number, optional
candidate set. -/
structure Cell where
  direction : Direction
  number : Option ℤ := none
  candidates : Option (Finset ℤ) := none
  deriving DecidableEq

/-- `Puzzle` dataclass: dimensions and a grid of cells. -/
structure Puzzle where
  rows : ℕ
  cols : ℕ
  grid : List (List Cell)
  deriving DecidableEq

/-- The `__post_init__` dimension check of `Puzzle`. -/
def Puzzle.dimsOk (p : Puzzle) : Prop :=
  p.grid.length = p.rows ∧ ∀ row ∈ p.grid, row.length = p.cols

instance (p : Puzzle) : Decidable p.dimsOk := by
  unfold Puzzle.dimsOk; infer_instance

/-- `puzzle.grid[r][c]`, failing (IndexError) when out of range. -/
def Puzzle.getCell (p : Puzzle) (r c : ℕ) : Option Cell :=
  p.grid[r]?.bind fun row => row[c]?

/-- A list is unchanged by writing back the element already at an index. -/
theorem list_set_self {α : Type} (l : List α) (n : ℕ) (x : α)
    (h : l[n]? = some x) : l.set n x = l := by
  induction l generalizing n with
  | nil => simp at h
  | cons a as ih =>
    cases n with
    | zero => simp at h; simp [List.set, h]
    | succ m =>
      simp only [List.getElem?_cons_succ] at h
      simp [List.set, ih m h]

/-- Write a cell back at `(r, c)` (in-place mutation of `grid[r][c]`). -/
def Puzzle.setCell (p : Puzzle) (r c : ℕ) (cell : Cell) : Puzzle :=
  { p with grid := p.grid.set r ((p.grid.getD r []).set c cell) }

/-- `0 <= r < rows and 0 <= c < cols` for integer coordinates. -/
def inBounds (rows cols : ℕ) (r c : ℤ) : Bool :=
  0 ≤ r && r < (rows : ℤ) && 0 ≤ c && c < (cols : ℤ)

/-- One straight-line walk step list: positions strictly after `(r, c)` in
direction `(dr, dc)` that stay inside the grid (the loop bodies of
`compute_all_paths` and `Puzzle.validate`). Structural on `fuel`; any
`fuel ≥ rows + cols` is enough to exhaust the grid. -/
def walkPath (rows cols : ℕ) (dr dc : ℤ) : ℕ → ℤ → ℤ → List (ℕ × ℕ)
  | 0, _, _ => []
  | fuel + 1, r, c =>
    let nr := r + dr
    let nc := c + dc
    if inBounds rows cols nr nc then
      (nr.toNat, nc.toNat) :: walkPath rows cols dr dc fuel nr nc
    else
      []

/-- The ray of cell `(r, c)`: the inner while-loop of `compute_all_paths`. -/
def Puzzle.pathFrom (p : Puzzle) (r c : ℕ) : List (ℕ × ℕ) :=
  match p.getCell r c with
  | none => []
  | some cell =>
    let (dr, dc) := cell.direction.delta
    walkPath p.rows p.cols dr dc (p.rows + p.cols + 1) (r : ℤ) (c : ℤ)

/-- `compute_all_paths` of `solver/definitions.py`, as the lookup function
of the produced dictionary (`path_cache.get(key, [])` on missing keys). -/
def computeAllPaths (p : Puzzle) : ℕ × ℕ → List (ℕ × ℕ) :=
  fun (r, c) => if r < p.rows ∧ c < p.cols then p.pathFrom r c else []

/-- Distinct committed values along a list of coordinates (the
`path_values` set built by `Puzzle.validate`). -/
def committedValuesOn (p : Puzzle) (path : List (ℕ × ℕ)) : Finset ℤ :=
  path.foldl (fun acc (rc : ℕ × ℕ) =>
    match p.getCell rc.1 rc.2 with
    | some cell =>
      match cell.number with
      | some v => insert v acc
      | none => acc
    | none => acc) ∅

/-- The per-cell check of `Puzzle.validate`: the cell is committed and its
value equals the count of distinct committed values on its ray. -/
def Puzzle.validateCell (p : Puzzle) (r c : ℕ) : Bool :=
  match p.getCell r c with
  | none => false
  | some cell =>
    match cell.number with
    | none => false
    | some v => v = (committedValuesOn p (p.pathFrom r c)).card

/-- `Puzzle.validate` of `models.py`: every cell committed and its value
equal to the number of distinct committed values on its ray.  (The
`visited` cycle check of the Python loop can never fire on a straight
ray — every step moves by a fixed non-zero delta — so the traversal is
exactly `pathFrom`.) -/
def Puzzle.validate (p : Puzzle) : Bool :=
  (List.range p.rows).all fun r =>
    (List.range p.cols).all fun c => p.validateCell r c

/-! Basic cell-access lemmas. -/

theorem Puzzle.getCell_setCell_self (p : Puzzle) (r c : ℕ) (cell : Cell)
    (h : p.getCell r c ≠ none) :
    (p.setCell r c cell).getCell r c = some cell := by
  unfold Puzzle.getCell Puzzle.setCell at *
  cases hrow : p.grid[r]? with
  | none => simp [hrow] at h
  | some row =>
    have hr : r < p.grid.length := by
      by_contra hgt
      rw [List.getElem?_eq_none (by omega)] at hrow
      exact Option.noConfusion hrow
    have hcd : (p.grid.set r ((p.grid.getD r []).set c cell))[r]? =
        some (row.set c cell) := by
      rw [List.getElem?_set_self hr]
      have : p.grid.getD r [] = row := by
        simp [List.getD, hrow]
      rw [this]
    simp only [hcd]
    rw [hrow] at h
    cases hcol : row[c]? with
    | none => simp [hcol] at h
    | some old =>
      have hc : c < row.length := by
        by_contra hgt
        rw [List.getElem?_eq_none (by omega)] at hcol
        exact Option.noConfusion hcol
      simp [List.getElem?_set_self hc]

theorem Puzzle.getCell_setCell_ne (p : Puzzle) (r c r' c' : ℕ) (cell : Cell)
    (h : (r, c) ≠ (r', c')) :
    (p.setCell r c cell).getCell r' c' = p.getCell r' c' := by
  unfold Puzzle.getCell Puzzle.setCell
  by_cases hr : r = r'
  · subst hr
    have hc : c ≠ c' := by
      intro hc; exact h (by rw [hc])
    by_cases hrlen : r < p.grid.length
    · rw [List.getElem?_set_self hrlen]
      have hgd : p.grid.getD r [] = p.grid[r] := by
        simp [List.getD, List.getElem?_eq_getElem hrlen]
      rw [hgd]
      rw [List.getElem?_eq_getElem hrlen]
      simp [List.getElem?_set_ne hc]
    · rw [List.getElem?_eq_none (by omega : p.grid.length ≤ r),
        List.getElem?_eq_none]
      simp [List.length_set]; omega
  · simp [List.getElem?_set_ne hr]

theorem Puzzle.setCell_rows (p : Puzzle) (r c : ℕ) (cell : Cell) :
    (p.setCell r c cell).rows = p.rows := rfl

theorem Puzzle.setCell_cols (p : Puzzle) (r c : ℕ) (cell : Cell) :
    (p.setCell r c cell).cols = p.cols := rfl

/-! ## rules.py: terms, formulas, conclusions, rules -/

/-- Runtime values flowing through the interpreter: ints, `(r, c)` position
tuples, strings (the sentinels `"OOB"` / `"nil"` among them), directions. -/
inductive Val where
  | int (n : ℤ)
  | pos (r c : ℕ)
  | str (s : String)
  | dir (d : Direction)
  deriving DecidableEq

/-- Payload of a `Constant` term (integers or strings such as "OOB"). -/
inductive CVal where
  | int (n : ℤ)
  | str (s : String)
  deriving DecidableEq

/-- FOL terms (`Variable`, `Constant`, `FunctionCall`). -/
inductive Term where
  | var (name : String)
  | const (value : CVal)
  | func (name : String) (args : List Term)

/-- FOL formulas of `rules.py`. Bound variables are kept by name, as in the
Python `Variable` records. -/
inductive Formula where
  | rel (relation : String) (args : List Term)
  | eq (left right : Term)
  | not (formula : Formula)
  | and (formulas : List Formula)
  | or (formulas : List Formula)
  | existsPos (vars : List String) (formula : Formula)
  | existsNum (vars : List String) (formula : Formula)
  | forallPos (vars : List String) (formula : Formula)
  | forallNum (vars : List String) (formula : Formula)

/-- Conclusions: `SetVal`, `ExcludeVal`, `OnlyVal`. The exclude operator is
kept as a string exactly as in the Python dataclass. -/
inductive Conclusion where
  | setVal (position value : Term)
  | excludeVal (position : Term) (operator : String) (value : Term)
  | onlyVal (position : Term) (values : List Term)

/-- The position term of a conclusion (`Conclusion.position`). -/
def Conclusion.position : Conclusion → Term
  | .setVal p _ => p
  | .excludeVal p _ _ => p
  | .onlyVal p _ => p

/-- Rules: `FORule` or `BacktrackRule`. -/
inductive Rule where
  | fo (name : String) (condition : Formula) (conclusions : List Conclusion)
      (complexity : ℕ)
  | backtrack (name : String) (complexity backtrackDepth ruleDepth
      maxRuleComplexity : ℕ)

def Rule.name : Rule → String
  | .fo n _ _ _ => n
  | .backtrack n _ _ _ _ => n

def Rule.complexity : Rule → ℕ
  | .fo _ _ _ c => c
  | .backtrack _ c _ _ _ => c

/-! ## Assignments (Python dicts from variable names to values) -/

/-- A witness assignment: insertion-ordered key/value list modelling a
Python `dict[str, Any]` (keys unique, later writes overwrite in place). -/
abbrev Assignment := List (String × Val)

/-- `d[k]` lookup. -/
def aGet (a : Assignment) (k : String) : Option Val :=
  (a.find? (fun kv => kv.1 = k)).map (·.2)

/-- `d[k] = v`: overwrite in place if present, else append. -/
def aInsert (a : Assignment) (k : String) (v : Val) : Assignment :=
  if a.any (fun kv => kv.1 = k) then
    a.map (fun kv => if kv.1 = k then (k, v) else kv)
  else
    a ++ [(k, v)]

/-- `d1 | d2` (right operand wins on shared keys, positions as in CPython). -/
def aMerge (a b : Assignment) : Assignment :=
  b.foldl (fun acc kv => aInsert acc kv.1 kv.2) a

/-- `for name, val in zip(names, values): d[name] = val`. -/
def aInsertMany (a : Assignment) (names : List String) (vals : List Val) :
    Assignment :=
  (names.zip vals).foldl (fun acc kv => aInsert acc kv.1 kv.2) a

/-! ## universe.py: the interpretation bundle and the evaluator -/

/-- `Universe` dataclass: domains, constants, relation and function
interpretations, quantifier exclusions.  Function and relation
implementations return `none` where the Python callable would raise. -/
structure Universe where
  domainPos : List Val
  domainNum : List Val
  exclPos : List Val
  exclNum : List Val
  constants : List (String × Val)
  functions : String → Option (List Val → Option Val)
  relations : String → Option (List Val → Option Bool)

/-- Quantifier element list: `domain - exclusions` (kept in domain order). -/
def Universe.qElements (u : Universe) (isPos : Bool) : List Val :=
  if isPos then u.domainPos.filter (fun x => ¬ x ∈ u.exclPos)
  else u.domainNum.filter (fun x => ¬ x ∈ u.exclNum)

/-- `itertools.product(elements, repeat=k)` in generation order (first
coordinate varies slowest). -/
def listProd (elements : List Val) : ℕ → List (List Val)
  | 0 => [[]]
  | k + 1 => elements.flatMap fun x => (listProd elements k).map (x :: ·)

mutual

/-- `Universe.eval_term`: variables from the assignment (KeyError ⇒ `none`),
constants through the constants table, `+`/`-` built-ins (non-ints give
`"nil"`), other functions through the dispatch table (unknown ⇒ `none`). -/
def evalTerm (u : Universe) : ℕ → Term → Assignment → Option Val
  | 0, _, _ => none
  | _ + 1, .var name, a => aGet a name
  | _ + 1, .const (.int n), _ => some (.int n)
  | _ + 1, .const (.str s), _ =>
    match u.constants.find? (fun kv => kv.1 = s) with
    | some kv => some kv.2
    | none => some (.str s)
  | fuel + 1, .func name args, a =>
    if name = "+" then
      match args[0]?, args[1]? with
      | some l, some r =>
        match evalTerm u fuel l a, evalTerm u fuel r a with
        | some (.int x), some (.int y) => some (.int (x + y))
        | some _, some _ => some (.str "nil")
        | _, _ => none
      | _, _ => none
    else if name = "-" then
      match args[0]?, args[1]? with
      | some l, some r =>
        match evalTerm u fuel l a, evalTerm u fuel r a with
        | some (.int x), some (.int y) => some (.int (x - y))
        | some _, some _ => some (.str "nil")
        | _, _ => none
      | _, _ => none
    else
      match u.functions name with
      | none => none
      | some f =>
        match evalTermList u fuel args a with
        | none => none
        | some vals => f vals

/-- Evaluate an argument list left to right, propagating failure. -/
def evalTermList (u : Universe) : ℕ → List Term → Assignment →
    Option (List Val)
  | 0, _, _ => none
  | _ + 1, [], _ => some []
  | fuel + 1, t :: ts, a =>
    match evalTerm u fuel t a, evalTermList u fuel ts a with
    | some v, some vs => some (v :: vs)
    | _, _ => none

end

mutual

/-- `Universe._check_all`: all witness assignments for which the formula
holds, in enumeration order.  `none` models a Python exception (unknown
symbol / undefined variable) raised during the enumeration. -/
def checkAll (u : Universe) : ℕ → Formula → Assignment →
    Option (List Assignment)
  | 0, _, _ => none
  | fuel + 1, .and fs, assignment => checkAndList u fuel fs assignment []
  | fuel + 1, .or fs, assignment => checkOrList u fuel fs assignment
  | fuel + 1, .not f, assignment =>
    match checkAll u fuel f assignment with
    | none => none
    | some [] => some [[]]
    | some (_ :: _) => some []
  | fuel + 1, .existsPos vars f, assignment =>
    checkExistsTuples u fuel (listProd (u.qElements true) vars.length)
      vars f assignment
  | fuel + 1, .existsNum vars f, assignment =>
    checkExistsTuples u fuel (listProd (u.qElements false) vars.length)
      vars f assignment
  | fuel + 1, .forallPos vars f, assignment =>
    checkForallTuples u fuel (listProd (u.qElements true) vars.length)
      vars f assignment
  | fuel + 1, .forallNum vars f, assignment =>
    checkForallTuples u fuel (listProd (u.qElements false) vars.length)
      vars f assignment
  | fuel + 1, .rel name args, assignment =>
    match evalTermList u (fuel + 1) args assignment with
    | none => none
    | some vals =>
      match u.relations name with
      | none => none
      | some rimpl =>
        match rimpl vals with
        | none => none
        | some true => some [[]]
        | some false => some []
  | fuel + 1, .eq l r, assignment =>
    match evalTerm u (fuel + 1) l assignment,
        evalTerm u (fuel + 1) r assignment with
    | some lv, some rv => some (if lv = rv then [[]] else [])
    | _, _ => none

/-- `Universe._check_and`: nested loop joining the witnesses of a
conjunction, merging dictionaries left to right. -/
def checkAndList (u : Universe) : ℕ → List Formula → Assignment →
    Assignment → Option (List Assignment)
  | 0, _, _, _ => none
  | _ + 1, [], _, combined => some [combined]
  | fuel + 1, f :: rest, assignment, combined =>
    match checkAll u fuel f assignment with
    | none => none
    | some ws => checkAndWitnesses u fuel ws rest assignment combined

/-- Inner loop of `_check_and`: iterate the head's witnesses. -/
def checkAndWitnesses (u : Universe) : ℕ → List Assignment → List Formula →
    Assignment → Assignment → Option (List Assignment)
  | 0, _, _, _, _ => none
  | _ + 1, [], _, _, _ => some []
  | fuel + 1, w :: ws, rest, assignment, combined =>
    match checkAndList u fuel rest assignment (aMerge combined w) with
    | none => none
    | some rs =>
      match checkAndWitnesses u fuel ws rest assignment combined with
      | none => none
      | some more => some (rs ++ more)

/-- `Or`: yield from each disjunct in order. -/
def checkOrList (u : Universe) : ℕ → List Formula → Assignment →
    Option (List Assignment)
  | 0, _, _ => none
  | _ + 1, [], _ => some []
  | fuel + 1, f :: rest, assignment =>
    match checkAll u fuel f assignment with
    | none => none
    | some ws =>
      match checkOrList u fuel rest assignment with
      | none => none
      | some more => some (ws ++ more)

/-- Existential quantifier loop over the element tuples. -/
def checkExistsTuples (u : Universe) : ℕ → List (List Val) → List String →
    Formula → Assignment → Option (List Assignment)
  | 0, _, _, _, _ => none
  | _ + 1, [], _, _, _ => some []
  | fuel + 1, values :: more, names, f, assignment =>
    let newAssignment := aInsertMany assignment names values
    let currentWitness := aInsertMany [] names values
    match checkAll u fuel f newAssignment with
    | none => none
    | some inner =>
      match checkExistsTuples u fuel more names f assignment with
      | none => none
      | some rest =>
        some (inner.map (fun iw => aMerge currentWitness iw) ++ rest)

/-- Universal quantifier loop: one empty witness iff every element tuple
admits at least one inner witness. -/
def checkForallTuples (u : Universe) : ℕ → List (List Val) → List String →
    Formula → Assignment → Option (List Assignment)
  | 0, _, _, _, _ => none
  | _ + 1, [], _, _, _ => some [[]]
  | fuel + 1, values :: more, names, f, assignment =>
    let newAssignment := aInsertMany assignment names values
    match checkAll u fuel f newAssignment with
    | none => none
    | some [] => some []
    | some (_ :: _) => checkForallTuples u fuel more names f assignment

end

/-! ## solver/definitions.py: the concrete puzzle Universe -/

/-- `get_path` helper of `create_universe`: the cached ray for in-grid
tuples, `[]` for `"OOB"` and other non-tuples, failure (KeyError) for
tuples outside the cache. -/
def getPathVal (p : Puzzle) (pc : ℕ × ℕ → List (ℕ × ℕ)) :
    Val → Option (List (ℕ × ℕ))
  | .str "OOB" => some []
  | .pos r c => if r < p.rows ∧ c < p.cols then some (pc (r, c)) else none
  | _ => some []

/-- `next` function: next cell along the direction, `"OOB"` at the edge. -/
def fnNext (p : Puzzle) : Val → Option Val
  | .str "OOB" => some (.str "OOB")
  | .pos r c =>
    match p.getCell r c with
    | none => none
    | some cell =>
      let (dr, dc) := cell.direction.delta
      let nr := (r : ℤ) + dr
      let nc := (c : ℤ) + dc
      if inBounds p.rows p.cols nr nc then some (.pos nr.toNat nc.toNat)
      else some (.str "OOB")
  | _ => none

/-- `val` function: committed value or `"nil"`. -/
def fnVal (p : Puzzle) : Val → Option Val
  | .str "OOB" => some (.str "nil")
  | .pos r c =>
    match p.getCell r c with
    | none => none
    | some cell =>
      match cell.number with
      | some v => some (.int v)
      | none => some (.str "nil")
  | _ => none

/-- `ahead` function via the precomputed `ahead_cache` (`dict.get(p, 0)`:
everything outside the cache, `"OOB"` included, yields 0). -/
def fnAhead (p : Puzzle) (pc : ℕ × ℕ → List (ℕ × ℕ)) : Val → Option Val
  | .pos r c =>
    if r < p.rows ∧ c < p.cols then some (.int (pc (r, c)).length)
    else some (.int 0)
  | _ => some (.int 0)

/-- `behind` function: walk against the arrow and count in-grid steps. -/
def fnBehind (p : Puzzle) : Val → Option Val
  | .str "OOB" => some (.int 0)
  | .pos r c =>
    match p.getCell r c with
    | none => none
    | some cell =>
      let (dr, dc) := cell.direction.delta
      some (.int (walkPath p.rows p.cols (-dr) (-dc)
        (p.rows + p.cols + 1) (r : ℤ) (c : ℤ)).length)
  | _ => none

/-- `dir` function. -/
def fnDir (p : Puzzle) : Val → Option Val
  | .str "OOB" => some (.str "nil")
  | .pos r c =>
    match p.getCell r c with
    | none => none
    | some cell => some (.dir cell.direction)
  | _ => none

/-- `sees_distinct`: distinct committed values on the ray. -/
def fnSeesDistinct (p : Puzzle) (pc : ℕ × ℕ → List (ℕ × ℕ)) :
    Val → Option Val
  | .str "OOB" => some (.int 0)
  | v =>
    match getPathVal p pc v with
    | none => none
    | some path => some (.int (committedValuesOn p path).card)

/-- Union of committed-or-candidate values along a path (the
`union_candidates` set of `sees_distinct_candidates`). -/
def unionCandidatesOn (p : Puzzle) (path : List (ℕ × ℕ)) : Finset ℤ :=
  path.foldl (fun acc (rc : ℕ × ℕ) =>
    match p.getCell rc.1 rc.2 with
    | some cell =>
      match cell.number with
      | some v => insert v acc
      | none =>
        match cell.candidates with
        | some s => acc ∪ s
        | none => acc
    | none => acc) ∅

/-- `sees_distinct_candidates`. -/
def fnSeesDistinctCandidates (p : Puzzle) (pc : ℕ × ℕ → List (ℕ × ℕ)) :
    Val → Option Val
  | .str "OOB" => some (.int 0)
  | v =>
    match getPathVal p pc v with
    | none => none
    | some path => some (.int (unionCandidatesOn p path).card)

/-- `ahead_free`: pending cells on the ray. -/
def fnAheadFree (p : Puzzle) (pc : ℕ × ℕ → List (ℕ × ℕ)) : Val → Option Val
  | .str "OOB" => some (.int 0)
  | v =>
    match getPathVal p pc v with
    | none => none
    | some path =>
      some (.int (path.countP (fun rc =>
        match p.getCell rc.1 rc.2 with
        | some cell => cell.number = none
        | none => false)))

/-- Loop body of `between_free`: count pending cells before `q` on the
path; `"nil"` when `q` is never met. -/
def betweenFreeLoop (p : Puzzle) (q : Val) : List (ℕ × ℕ) → ℤ → Val
  | [], _ => .str "nil"
  | rc :: rest, count =>
    if Val.pos rc.1 rc.2 = q then .int count
    else
      let pending : Bool :=
        match p.getCell rc.1 rc.2 with
        | some cell => cell.number.isNone
        | none => false
      betweenFreeLoop p q rest (if pending then count + 1 else count)

/-- `between_free`. -/
def fnBetweenFree (p : Puzzle) (pc : ℕ × ℕ → List (ℕ × ℕ)) :
    Val → Val → Option Val
  | .str "OOB", _ => some (.str "nil")
  | pv, q =>
    if q = .str "OOB" then some (.str "nil")
    else
      match getPathVal p pc pv with
      | none => none
      | some path => some (betweenFreeLoop p q path 0)

/-- `min_candidate`. -/
def fnMinCandidate (p : Puzzle) : Val → Option Val
  | .str "OOB" => some (.str "nil")
  | .pos r c =>
    match p.getCell r c with
    | none => none
    | some cell =>
      match cell.number with
      | some v => some (.int v)
      | none =>
        match cell.candidates with
        | some s =>
          if h : s.Nonempty then some (.int (s.min' h)) else some (.str "nil")
        | none => some (.str "nil")
  | _ => none

/-- `max_candidate`. -/
def fnMaxCandidate (p : Puzzle) : Val → Option Val
  | .str "OOB" => some (.str "nil")
  | .pos r c =>
    match p.getCell r c with
    | none => none
    | some cell =>
      match cell.number with
      | some v => some (.int v)
      | none =>
        match cell.candidates with
        | some s =>
          if h : s.Nonempty then some (.int (s.max' h)) else some (.str "nil")
        | none => some (.str "nil")
  | _ => none

/-- `points_at` relation via the precomputed membership cache
(`dict.get(key, False)`: false for everything not cached). -/
def relPointsAt (p : Puzzle) (pc : ℕ × ℕ → List (ℕ × ℕ)) (a b : Val) : Bool :=
  match a, b with
  | .pos r c, .pos r' c' =>
    decide (r < p.rows ∧ c < p.cols) && decide ((r', c') ∈ pc (r, c))
  | _, _ => false

/-- `compare` helper for the order relations: false if either side is
`"nil"`, failure (AssertionError) on non-int non-nil operands. -/
def relCompare (op : String) (a b : Val) : Option Bool :=
  if a = .str "nil" ∨ b = .str "nil" then some false
  else
    match a, b with
    | .int x, .int y =>
      if op = "<" then some (x < y)
      else if op = ">" then some (x > y)
      else if op = "<=" then some (x ≤ y)
      else if op = ">=" then some (x ≥ y)
      else some false
    | _, _ => none

/-- `candidate` relation. -/
def relCandidate (p : Puzzle) (a i : Val) : Option Bool :=
  if a = .str "OOB" then some false
  else
    match i with
    | .int n =>
      match a with
      | .pos r c =>
        match p.getCell r c with
        | none => none
        | some cell =>
          match cell.number with
          | some v => some (v = n)
          | none =>
            match cell.candidates with
            | some s => some (n ∈ s)
            | none => some false
      | _ => none
    | _ => some false

/-- `sees_value` relation. -/
def relSeesValue (p : Puzzle) (pc : ℕ × ℕ → List (ℕ × ℕ)) (a i : Val) :
    Option Bool :=
  if a = .str "OOB" then some false
  else
    match i with
    | .int n =>
      match getPathVal p pc a with
      | none => none
      | some path =>
        some (path.any fun rc =>
          match p.getCell rc.1 rc.2 with
          | some cell => cell.number = some n
          | none => false)
    | _ => some false

/-- First argument of a 1-ary dispatch-table lambda (`args[0]`;
IndexError on an empty tuple). -/
def arg1 (f : Val → Option Val) : List Val → Option Val
  | [] => none
  | x :: _ => f x

/-- Two arguments of a 2-ary dispatch-table lambda. -/
def arg2 (f : Val → Val → Option Val) : List Val → Option Val
  | x :: y :: _ => f x y
  | _ => none

def arg2b (f : Val → Val → Option Bool) : List Val → Option Bool
  | x :: y :: _ => f x y
  | _ => none

/-- Row-major list of in-grid positions. -/
def gridPositions (rows cols : ℕ) : List (ℕ × ℕ) :=
  (List.range rows).flatMap fun r => (List.range cols).map fun c => (r, c)

/-- `create_universe` of `solver/definitions.py`: domains (positions plus
`"OOB"`, numbers `0..max(rows, cols)-1` plus `"nil"`), the constants
table, the function and relation dispatch tables, and the quantifier
exclusions.  Python's set iteration order is fixed to row-major /
ascending. -/
def createUniverse (p : Puzzle) (pc : ℕ × ℕ → List (ℕ × ℕ)) : Universe :=
  let maxDim := max p.rows p.cols
  { domainPos :=
      (gridPositions p.rows p.cols).map (fun rc => Val.pos rc.1 rc.2) ++
        [.str "OOB"]
    domainNum := (List.range maxDim).map (fun i => Val.int i) ++ [.str "nil"]
    exclPos := [.str "OOB"]
    exclNum := [.str "nil"]
    constants :=
      ("OOB", .str "OOB") :: ("nil", .str "nil") ::
        (List.range maxDim).map (fun i => (toString i, Val.int i))
    functions := fun name =>
      if name = "next" then some (arg1 (fnNext p))
      else if name = "val" then some (arg1 (fnVal p))
      else if name = "ahead" then some (arg1 (fnAhead p pc))
      else if name = "behind" then some (arg1 (fnBehind p))
      else if name = "between_free" then some (arg2 (fnBetweenFree p pc))
      else if name = "ahead_free" then some (arg1 (fnAheadFree p pc))
      else if name = "dir" then some (arg1 (fnDir p))
      else if name = "sees_distinct" then some (arg1 (fnSeesDistinct p pc))
      else if name = "sees_distinct_candidates" then
        some (arg1 (fnSeesDistinctCandidates p pc))
      else if name = "min_candidate" then some (arg1 (fnMinCandidate p))
      else if name = "max_candidate" then some (arg1 (fnMaxCandidate p))
      else if name = "add" then
        some (arg2 (fun a b =>
          match a, b with
          | .int x, .int y => some (.int (x + y))
          | _, _ => some (.str "nil")))
      else none
    relations := fun name =>
      if name = "points_at" then
        some (arg2b (fun a b => some (relPointsAt p pc a b)))
      else if name = "candidate" then some (arg2b (relCandidate p))
      else if name = "sees_value" then some (arg2b (relSeesValue p pc))
      else if name = "<" then some (arg2b (relCompare "<"))
      else if name = ">" then some (arg2b (relCompare ">"))
      else if name = "<=" then some (arg2b (relCompare "<="))
      else if name = ">=" then some (arg2b (relCompare ">="))
      else none }

/-! ## solver/utils.py: the conclusion applier -/

/-- `ConclusionApplicationResult` enum of `solver/definitions.py`. -/
inductive ConclusionApplicationResult where
  | noProgress
  | progress
  | contradiction
  deriving DecidableEq

/-- Result shapes of `calculate_new_candidates` (the four-tuple of the
Python function): `error` models a raised exception. -/
inductive CalcResult where
  | error
  | noProgress
  | contradiction (loc : ℕ × ℕ) (cell : Cell)
  | ok (newCandidates : Finset ℤ) (loc : ℕ × ℕ) (cell : Cell)
      (current : Finset ℤ)
  deriving DecidableEq

/-- `next(iter(s))` as used on a one-element set: its unique element
(extracted as the minimum, which for a singleton is that element). -/
def singletonElem (s : Finset ℤ) : Option ℤ :=
  s.min.map id

/-- The new-candidate filter of an `ExcludeVal` conclusion: drop every
candidate `c` with `c op val` (unknown operators leave the set alone,
exactly like the if/elif chain). -/
def excludeFilter (s : Finset ℤ) (op : String) (v : ℤ) : Finset ℤ :=
  if op = "=" then s.erase v
  else if op = ">" then s.filter (fun c => ¬ c > v)
  else if op = "<" then s.filter (fun c => ¬ c < v)
  else if op = ">=" then s.filter (fun c => ¬ c ≥ v)
  else if op = "<=" then s.filter (fun c => ¬ c ≤ v)
  else if op = "!=" then s.filter (fun c => ¬ c ≠ v)
  else s

/-- The allowed set of an `OnlyVal` conclusion: the integer evaluated
values. -/
def onlyAllowed (vals : List Val) : Finset ℤ :=
  vals.foldl (fun acc v =>
    match v with
    | .int n => insert n acc
    | _ => acc) ∅

/-- The conclusion-operator step of `calculate_new_candidates`: the new
candidate set computed from the effective current one.  `none` models a
raised evaluation exception; `some none` the early `SetVal`
non-integer contradiction. -/
def calcStep (current : Finset ℤ) (concl : Conclusion) (w : Assignment)
    (u : Universe) (fuel : ℕ) : Option (Option (Finset ℤ)) :=
  match concl with
  | .excludeVal _ op value =>
    match evalTerm u fuel value w with
    | none => none
    | some (.int v) => some (some (excludeFilter current op v))
    | some _ => some (some current)
  | .setVal _ value =>
    match evalTerm u fuel value w with
    | none => none
    | some (.int v) => some (some (current ∩ {v}))
    | some _ => some none
  | .onlyVal _ values =>
    match evalTermList u fuel values w with
    | none => none
    | some vals => some (some (current ∩ onlyAllowed vals))

/-- The `current_candidates` computation of `calculate_new_candidates`:
`{number}` for committed cells, else the explicit candidates. -/
def currentCandidates (cell : Cell) : Option (Finset ℤ) :=
  match cell.number with
  | some v => some {v}
  | none => cell.candidates

/-- `calculate_new_candidates` of `solver/utils.py`. -/
def calculateNewCandidates (p : Puzzle) (concl : Conclusion) (w : Assignment)
    (u : Universe) (fuel : ℕ) : CalcResult :=
  match evalTerm u fuel concl.position w with
  | none => .error
  | some pv =>
    if pv = .str "OOB" then .noProgress
    else
      match pv with
      | .pos r c =>
        match p.getCell r c with
        | none => .error
        | some cell =>
          if cell.number.isSome ∧ cell.candidates = some ∅ then .noProgress
          else
            match currentCandidates cell with
            | none => .noProgress
            | some current =>
              match calcStep current concl w u fuel with
              | none => .error
              | some none => .contradiction (r, c) cell
              | some (some newCandidates) =>
                if newCandidates = ∅ then .contradiction (r, c) cell
                else .ok newCandidates (r, c) cell current
      | _ => .error

/-- The committed cell written on progress: candidates replaced, number
set to the sole candidate when exactly one remains. -/
def progressCell (cell : Cell) (newCandidates : Finset ℤ) : Cell :=
  { cell with
    candidates := some newCandidates
    number :=
      if newCandidates.card = 1 then singletonElem newCandidates
      else cell.number }

/-- The cell written on contradiction (`cell.candidates = set()`,
`cell.number = None`). -/
def contradictionCell (cell : Cell) : Cell :=
  { cell with candidates := some ∅, number := none }

/-- `apply_conclusion` of `solver/utils.py`: result, contradiction
location, and the puzzle after the (possible) in-place write. -/
def applyConclusion (p : Puzzle) (concl : Conclusion) (w : Assignment)
    (u : Universe) (fuel : ℕ) :
    Option (ConclusionApplicationResult × Option (ℕ × ℕ) × Puzzle) :=
  match calculateNewCandidates p concl w u fuel with
  | .error => none
  | .noProgress => some (.noProgress, none, p)
  | .contradiction loc cell =>
    some (.contradiction, some loc, p.setCell loc.1 loc.2
      (contradictionCell cell))
  | .ok newCandidates loc cell current =>
    if newCandidates ≠ current then
      some (.progress, none, p.setCell loc.1 loc.2
        (progressCell cell newCandidates))
    else
      some (.noProgress, none, p)

/-- The closure state captured by the `undo` function of
`apply_conclusion_with_undo`. -/
structure UndoHandle where
  loc : ℕ × ℕ
  oldCandidates : Option (Finset ℤ)
  oldNumber : Option ℤ
  deriving DecidableEq

/-- Invoking the undo closure: restore the saved candidate set and
committed value of the target cell. -/
def performUndo (p : Puzzle) (h : UndoHandle) : Puzzle :=
  match p.getCell h.loc.1 h.loc.2 with
  | none => p
  | some cell =>
    p.setCell h.loc.1 h.loc.2
      { cell with candidates := h.oldCandidates, number := h.oldNumber }

/-- Return shapes of `apply_conclusion_with_undo` (`None`,
`"CONTRADICTION"`, or an undo callable after a successful write). -/
inductive UndoResult where
  | noProgress
  | contradiction
  | progress (newPuzzle : Puzzle) (undo : UndoHandle)
  deriving DecidableEq

/-- `apply_conclusion_with_undo` of `solver/utils.py`: no mutation on
contradiction; on progress the write plus a handle restoring the
previous candidates and number. -/
def applyConclusionWithUndo (p : Puzzle) (concl : Conclusion)
    (w : Assignment) (u : Universe) (fuel : ℕ) : Option UndoResult :=
  match calculateNewCandidates p concl w u fuel with
  | .error => none
  | .noProgress => some .noProgress
  | .contradiction _ _ => some .contradiction
  | .ok newCandidates loc cell current =>
    if newCandidates ≠ current then
      some (.progress
        (p.setCell loc.1 loc.2 (progressCell cell newCandidates))
        ⟨loc, cell.candidates, cell.number⟩)
    else
      some .noProgress

/-! Write-back lemmas used by the undo theorem. -/

theorem Puzzle.setCell_setCell (p : Puzzle) (r c : ℕ) (a b : Cell) :
    (p.setCell r c a).setCell r c b = p.setCell r c b := by
  unfold Puzzle.setCell
  by_cases hr : r < p.grid.length
  · simp only [Puzzle.mk.injEq, true_and]
    rw [List.set_set]
    congr 1
    have h1 : (p.grid.set r ((p.grid.getD r []).set c a)).getD r [] =
        (p.grid.getD r []).set c a := by
      simp [List.getD, List.getElem?_set_self hr]
    rw [h1, List.set_set]
  · have hset : ∀ row : List Cell, p.grid.set r row = p.grid := by
      intro row
      apply List.set_eq_of_length_le
      omega
    simp only [hset]

theorem Puzzle.setCell_self (p : Puzzle) (r c : ℕ) (cell : Cell)
    (h : p.getCell r c = some cell) : p.setCell r c cell = p := by
  unfold Puzzle.getCell at h
  rw [Option.bind_eq_some] at h
  obtain ⟨row, hrow, hc⟩ := h
  unfold Puzzle.setCell
  have hgd : p.grid.getD r [] = row := by simp [List.getD, hrow]
  rw [hgd, list_set_self row c cell hc, list_set_self p.grid r row hrow]

/-- The effective current candidate set of a cell, as the spec words it:
the explicit candidates, or `{v}` for a cell committed to `v`. -/
def effectiveCandidates (cell : Cell) : Option (Finset ℤ) :=
  match cell.number with
  | some v => some {v}
  | none => cell.candidates

theorem excludeFilter_subset (s : Finset ℤ) (op : String) (v : ℤ) :
    excludeFilter s op v ⊆ s := by
  unfold excludeFilter
  repeat' split
  · exact Finset.erase_subset v s
  all_goals first
    | exact Finset.filter_subset _ s
    | exact Finset.Subset.refl s

theorem onlyAllowed_inter_subset (s : Finset ℤ) (vals : List Val) :
    s ∩ onlyAllowed vals ⊆ s :=
  Finset.inter_subset_left

/-- The step set is always a subset of the current set. -/
theorem calcStep_subset (current : Finset ℤ) (concl : Conclusion)
    (w : Assignment) (u : Universe) (fuel : ℕ) (s : Finset ℤ)
    (h : calcStep current concl w u fuel = some (some s)) : s ⊆ current := by
  unfold calcStep at h
  match concl with
  | .excludeVal _ op value =>
    simp only at h
    cases hv : evalTerm u fuel value w with
    | none => rw [hv] at h; exact Option.noConfusion h
    | some v =>
      rw [hv] at h
      match v with
      | .int n =>
        simp only [Option.some.injEq] at h
        rw [← h]
        exact excludeFilter_subset ..
      | .pos a b | .str str | .dir d =>
        simp only [Option.some.injEq] at h
        rw [← h]
  | .setVal _ value =>
    simp only at h
    cases hv : evalTerm u fuel value w with
    | none => rw [hv] at h; exact Option.noConfusion h
    | some v =>
      rw [hv] at h
      match v with
      | .int n =>
        simp only [Option.some.injEq] at h
        rw [← h]
        exact Finset.inter_subset_left
      | .pos a b | .str str | .dir d =>
        simp only [Option.some.injEq] at h
        exact Option.noConfusion h
  | .onlyVal _ values =>
    simp only at h
    cases hv : evalTermList u fuel values w with
    | none => rw [hv] at h; exact Option.noConfusion h
    | some vals =>
      rw [hv] at h
      simp only [Option.some.injEq] at h
      rw [← h]
      exact Finset.inter_subset_left

/-- Inversion of the successful branch of `calculate_new_candidates`: on
`ok`, the location addresses the inspected cell, the new set is a
non-empty subset of the effective current set, and the current set is the
effective one. -/
theorem calc_ok_inversion (p : Puzzle) (concl : Conclusion) (w : Assignment)
    (u : Universe) (fuel : ℕ) (newC : Finset ℤ) (loc : ℕ × ℕ) (cell : Cell)
    (current : Finset ℤ)
    (h : calculateNewCandidates p concl w u fuel = .ok newC loc cell current) :
    p.getCell loc.1 loc.2 = some cell ∧ newC ⊆ current ∧ newC ≠ ∅ ∧
      currentCandidates cell = some current := by
  unfold calculateNewCandidates at h
  cases hev : evalTerm u fuel concl.position w with
  | none => simp only [hev] at h; exact CalcResult.noConfusion h
  | some pv =>
    match pv with
    | .int _ | .dir _ => simp [hev] at h
    | .str str =>
      simp only [hev] at h
      by_cases hs : (Val.str str) = .str "OOB"
      · rw [if_pos hs] at h; exact CalcResult.noConfusion h
      · rw [if_neg hs] at h; exact CalcResult.noConfusion h
    | .pos r c =>
      simp only [hev] at h
      rw [if_neg (by simp)] at h
      cases hcell : p.getCell r c with
      | none => simp only [hcell] at h; exact CalcResult.noConfusion h
      | some cell0 =>
        simp only [hcell] at h
        by_cases hguard : cell0.number.isSome ∧ cell0.candidates = some ∅
        · rw [if_pos hguard] at h; exact CalcResult.noConfusion h
        · rw [if_neg hguard] at h
          cases hcur : currentCandidates cell0 with
          | none => simp only [hcur] at h; exact CalcResult.noConfusion h
          | some current0 =>
            simp only [hcur] at h
            cases hstep : calcStep current0 concl w u fuel with
            | none => simp only [hstep] at h; exact CalcResult.noConfusion h
            | some stepOpt =>
              match stepOpt with
              | none => simp only [hstep] at h; exact CalcResult.noConfusion h
              | some stepC =>
                simp only [hstep] at h
                by_cases hempty : stepC = ∅
                · rw [if_pos hempty] at h; exact CalcResult.noConfusion h
                · rw [if_neg hempty] at h
                  injection h with h1 h2 h3 h4
                  subst h1; subst h2; subst h3; subst h4
                  exact ⟨hcell, calcStep_subset _ _ _ _ _ _ hstep, hempty, hcur⟩

/-! Per-case unfolding lemmas for the two appliers. -/

theorem applyConclusion_of_error {p concl w u fuel}
    (h : calculateNewCandidates p concl w u fuel = .error) :
    applyConclusion p concl w u fuel = none := by
  unfold applyConclusion; rw [h]

theorem applyConclusion_of_noProgress {p concl w u fuel}
    (h : calculateNewCandidates p concl w u fuel = .noProgress) :
    applyConclusion p concl w u fuel = some (.noProgress, none, p) := by
  unfold applyConclusion; rw [h]

theorem applyConclusion_of_contradiction {p concl w u fuel loc cell}
    (h : calculateNewCandidates p concl w u fuel = .contradiction loc cell) :
    applyConclusion p concl w u fuel =
      some (.contradiction, some loc,
        p.setCell loc.1 loc.2 (contradictionCell cell)) := by
  unfold applyConclusion; rw [h]

theorem applyConclusion_of_ok {p concl w u fuel n loc cell cur}
    (h : calculateNewCandidates p concl w u fuel = .ok n loc cell cur) :
    applyConclusion p concl w u fuel =
      if n ≠ cur then
        some (.progress, none, p.setCell loc.1 loc.2 (progressCell cell n))
      else some (.noProgress, none, p) := by
  unfold applyConclusion; rw [h]

theorem applyWithUndo_of_error {p concl w u fuel}
    (h : calculateNewCandidates p concl w u fuel = .error) :
    applyConclusionWithUndo p concl w u fuel = none := by
  unfold applyConclusionWithUndo; rw [h]

theorem applyWithUndo_of_noProgress {p concl w u fuel}
    (h : calculateNewCandidates p concl w u fuel = .noProgress) :
    applyConclusionWithUndo p concl w u fuel = some .noProgress := by
  unfold applyConclusionWithUndo; rw [h]

theorem applyWithUndo_of_contradiction {p concl w u fuel loc cell}
    (h : calculateNewCandidates p concl w u fuel = .contradiction loc cell) :
    applyConclusionWithUndo p concl w u fuel = some .contradiction := by
  unfold applyConclusionWithUndo; rw [h]

theorem applyWithUndo_of_ok {p concl w u fuel n loc cell cur}
    (h : calculateNewCandidates p concl w u fuel = .ok n loc cell cur) :
    applyConclusionWithUndo p concl w u fuel =
      if n ≠ cur then
        some (.progress (p.setCell loc.1 loc.2 (progressCell cell n))
          ⟨loc, cell.candidates, cell.number⟩)
      else some .noProgress := by
  unfold applyConclusionWithUndo; rw [h]

/-- Restoring a progress write with its own undo record yields the
original cell. -/
theorem progressCell_restore (cell : Cell) (n : Finset ℤ) :
    ({ progressCell cell n with
        candidates := cell.candidates, number := cell.number } : Cell) =
      cell := by
  cases cell; rfl

/-- C4.  `apply_conclusion_with_undo` is atomic on failure and precisely
reversible: it reports CONTRADICTION exactly when the plain applier would
(and then performs no write — the result carries no mutated puzzle, while
the plain applier writes the empty candidate set); and on progress,
invoking the returned undo handle restores the written cell's previous
candidate set and committed value, giving back exactly the input
puzzle. -/
theorem apply_with_undo_atomic_reversible :
    ∀ (p : Puzzle) (concl : Conclusion) (w : Assignment) (u : Universe)
      (fuel : ℕ),
    (applyConclusionWithUndo p concl w u fuel = some .contradiction ↔
      ∃ loc cell,
        calculateNewCandidates p concl w u fuel = .contradiction loc cell ∧
        applyConclusion p concl w u fuel =
          some (.contradiction, some loc,
            p.setCell loc.1 loc.2 (contradictionCell cell)))
    ∧ (∀ (p' : Puzzle) (hnd : UndoHandle),
        applyConclusionWithUndo p concl w u fuel =
          some (.progress p' hnd) →
        performUndo p' hnd = p) := by
  intro p concl w u fuel
  constructor
  · constructor
    · intro hU
      cases hcalc : calculateNewCandidates p concl w u fuel with
      | error => rw [applyWithUndo_of_error hcalc] at hU
                 exact Option.noConfusion hU
      | noProgress =>
        rw [applyWithUndo_of_noProgress hcalc] at hU
        exact UndoResult.noConfusion (Option.some.inj hU)
      | contradiction loc cell =>
        exact ⟨loc, cell, rfl, applyConclusion_of_contradiction hcalc⟩
      | ok n l cl cur =>
        rw [applyWithUndo_of_ok hcalc] at hU
        by_cases hne : n ≠ cur
        · rw [if_pos hne] at hU
          exact UndoResult.noConfusion (Option.some.inj hU)
        · rw [if_neg hne] at hU
          exact UndoResult.noConfusion (Option.some.inj hU)
    · rintro ⟨loc, cell, hcalc, _⟩
      exact applyWithUndo_of_contradiction hcalc
  · intro p' hnd hU
    cases hcalc : calculateNewCandidates p concl w u fuel with
    | error => rw [applyWithUndo_of_error hcalc] at hU
               exact Option.noConfusion hU
    | noProgress =>
      rw [applyWithUndo_of_noProgress hcalc] at hU
      exact UndoResult.noConfusion (Option.some.inj hU)
    | contradiction loc cell =>
      rw [applyWithUndo_of_contradiction hcalc] at hU
      exact UndoResult.noConfusion (Option.some.inj hU)
    | ok n loc cell cur =>
      rw [applyWithUndo_of_ok hcalc] at hU
      obtain ⟨hget, _, _, _⟩ := calc_ok_inversion p concl w u fuel n loc cell
        cur hcalc
      by_cases hne : n ≠ cur
      · rw [if_pos hne] at hU
        have hinj := Option.some.inj hU
        injection hinj with hp' hh
        subst hp'; subst hh
        unfold performUndo
        have hget' : (p.setCell loc.1 loc.2 (progressCell cell n)).getCell
            loc.1 loc.2 = some (progressCell cell n) :=
          Puzzle.getCell_setCell_self p loc.1 loc.2 _ (by rw [hget]; simp)
        rw [hget']
        simp only
        rw [Puzzle.setCell_setCell]
        rw [progressCell_restore]
        exact Puzzle.setCell_self p loc.1 loc.2 cell hget
      · rw [if_neg hne] at hU
        exact UndoResult.noConfusion (Option.some.inj hU)

/-- C10.  Conclusion applications only shrink candidate sets: the computed
new set is a subset of the effective current set; consequently a cell
already committed to `v` can only see NO_PROGRESS (with the puzzle left
unchanged) or CONTRADICTION — never a re-commit to another value. -/
theorem conclusions_only_shrink :
    (∀ (p : Puzzle) (concl : Conclusion) (w : Assignment) (u : Universe)
        (fuel : ℕ) (newC : Finset ℤ) (loc : ℕ × ℕ) (cell : Cell)
        (current : Finset ℤ),
      calculateNewCandidates p concl w u fuel = .ok newC loc cell current →
      newC ⊆ current)
    ∧ (∀ (p : Puzzle) (concl : Conclusion) (w : Assignment) (u : Universe)
        (fuel : ℕ) (r c : ℕ) (cell : Cell) (v : ℤ)
        (res : ConclusionApplicationResult) (l : Option (ℕ × ℕ))
        (p' : Puzzle),
      evalTerm u fuel concl.position w = some (.pos r c) →
      p.getCell r c = some cell → cell.number = some v →
      applyConclusion p concl w u fuel = some (res, l, p') →
      (res = .noProgress ∧ p' = p) ∨ res = .contradiction) := by
  constructor
  · intro p concl w u fuel newC loc cell current h
    exact (calc_ok_inversion p concl w u fuel newC loc cell current h).2.1
  · intro p concl w u fuel r c cell v res l p' hev hget hnum happ
    cases hcalc : calculateNewCandidates p concl w u fuel with
    | error => rw [applyConclusion_of_error hcalc] at happ
               exact Option.noConfusion happ
    | noProgress =>
      rw [applyConclusion_of_noProgress hcalc] at happ
      have := Option.some.inj happ
      injection this with h1 h2
      injection h2 with h2 h3
      exact Or.inl ⟨h1.symm, h3.symm⟩
    | contradiction loc0 cell0 =>
      rw [applyConclusion_of_contradiction hcalc] at happ
      have := Option.some.inj happ
      injection this with h1 _
      exact Or.inr h1.symm
    | ok n loc0 cell0 cur =>
      obtain ⟨hget0, hsub, hne, hcur⟩ :=
        calc_ok_inversion p concl w u fuel n loc0 cell0 cur hcalc
      -- the targeted cell is the committed one, so `cur = {v}`
      have hloc : loc0 = (r, c) := by
        unfold calculateNewCandidates at hcalc
        simp only [hev] at hcalc
        rw [if_neg (by simp)] at hcalc
        simp only [hget] at hcalc
        by_cases hguard : cell.number.isSome ∧ cell.candidates = some ∅
        · rw [if_pos hguard] at hcalc; exact CalcResult.noConfusion hcalc
        · rw [if_neg hguard] at hcalc
          cases hc2 : currentCandidates cell with
          | none => simp [hc2] at hcalc
          | some cur2 =>
            simp only [hc2] at hcalc
            cases hstep : calcStep cur2 concl w u fuel with
            | none => simp [hstep] at hcalc
            | some so =>
              simp only [hstep] at hcalc
              match so with
              | none => exact CalcResult.noConfusion hcalc
              | some sc =>
                simp only at hcalc
                by_cases hemp : sc = ∅
                · rw [if_pos hemp] at hcalc
                  exact CalcResult.noConfusion hcalc
                · rw [if_neg hemp] at hcalc
                  injection hcalc with _ e2 _ _
                  exact e2.symm
      subst hloc
      rw [hget] at hget0
      have hcell0 : cell0 = cell := (Option.some.inj hget0).symm
      subst hcell0
      have hcurv : cur = {v} := by
        unfold currentCandidates at hcur
        rw [hnum] at hcur
        exact (Option.some.inj hcur).symm
      subst hcurv
      -- n ⊆ {v} and n ≠ ∅ force n = {v} = cur, hence NO_PROGRESS
      have hn : n = {v} := by
        rcases Finset.subset_singleton_iff.mp hsub with h0 | h1
        · exact absurd h0 hne
        · exact h1
      rw [applyConclusion_of_ok hcalc, if_neg (by simp [hn])] at happ
      have := Option.some.inj happ
      injection this with h1 h2
      injection h2 with h2 h3
      exact Or.inl ⟨h1.symm, h3.symm⟩

/-! ## C3: full characterisation of `apply_conclusion` -/

/-- The outcome policy as the spec words it, relative to the effective
current set `S` and the operator-computed set `Snew`: empty ⇒
CONTRADICTION at the cell, unchanged ⇒ NO_PROGRESS, otherwise write back
(committing a sole survivor) and report PROGRESS. -/
def specOutcome (p : Puzzle) (r c : ℕ) (cell : Cell) (S Snew : Finset ℤ) :
    Option (ConclusionApplicationResult × Option (ℕ × ℕ) × Puzzle) :=
  if Snew = ∅ then
    some (.contradiction, some (r, c), p.setCell r c (contradictionCell cell))
  else if Snew = S then some (.noProgress, none, p)
  else some (.progress, none, p.setCell r c (progressCell cell Snew))

theorem calc_of_inner {p : Puzzle} {concl : Conclusion} {w : Assignment}
    {u : Universe} {fuel : ℕ} {r c : ℕ} {cell : Cell}
    (hev : evalTerm u fuel concl.position w = some (.pos r c))
    (hget : p.getCell r c = some cell)
    (hguard : ¬ (cell.number.isSome ∧ cell.candidates = some ∅)) :
    calculateNewCandidates p concl w u fuel =
      (match currentCandidates cell with
       | none => .noProgress
       | some current =>
         match calcStep current concl w u fuel with
         | none => .error
         | some none => .contradiction (r, c) cell
         | some (some newCandidates) =>
           if newCandidates = ∅ then .contradiction (r, c) cell
           else .ok newCandidates (r, c) cell current) := by
  unfold calculateNewCandidates
  simp only [hev]
  rw [if_neg (by simp)]
  simp only [hget]
  rw [if_neg hguard]

theorem apply_from_step {p : Puzzle} {concl : Conclusion} {w : Assignment}
    {u : Universe} {fuel : ℕ} {r c : ℕ} {cell : Cell} {S Snew : Finset ℤ}
    (hev : evalTerm u fuel concl.position w = some (.pos r c))
    (hget : p.getCell r c = some cell)
    (hguard : ¬ (cell.number.isSome ∧ cell.candidates = some ∅))
    (hcur : currentCandidates cell = some S)
    (hstep : calcStep S concl w u fuel = some (some Snew)) :
    applyConclusion p concl w u fuel = specOutcome p r c cell S Snew := by
  have hcalc := calc_of_inner hev hget hguard
  rw [hcur] at hcalc
  simp only [hstep] at hcalc
  by_cases hemp : Snew = ∅
  · rw [if_pos hemp] at hcalc
    rw [applyConclusion_of_contradiction hcalc]
    unfold specOutcome
    rw [if_pos hemp]
  · rw [if_neg hemp] at hcalc
    rw [applyConclusion_of_ok hcalc]
    unfold specOutcome
    rw [if_neg hemp]
    by_cases heq : Snew = S
    · rw [if_pos heq, if_neg (by simp [heq])]
    · rw [if_neg heq, if_pos heq]

/-- C3 (amended).  `apply_conclusion` behaves as the spec describes — OOB
position ⇒ NO_PROGRESS; effective set `S` read from the cell ({v} when
committed, else the explicit candidates); `Set`/`Exclude`/`Only` compute
`S'`; non-integer `Set` values ⇒ CONTRADICTION; empty `S'` ⇒
CONTRADICTION; `S' = S` ⇒ NO_PROGRESS; otherwise write back, committing a
sole survivor, and report PROGRESS — with the amendment that a cell
whose committed number coexists with an explicitly empty candidate set,
or a pending cell carrying no candidate set at all, short-circuits to
NO_PROGRESS before any of this. -/
theorem apply_conclusion_characterisation :
    ∀ (p : Puzzle) (concl : Conclusion) (w : Assignment) (u : Universe)
      (fuel : ℕ),
    (evalTerm u fuel concl.position w = some (.str "OOB") →
      applyConclusion p concl w u fuel = some (.noProgress, none, p))
    ∧ (∀ (r c : ℕ) (cell : Cell),
        evalTerm u fuel concl.position w = some (.pos r c) →
        p.getCell r c = some cell →
        (cell.number.isSome ∧ cell.candidates = some ∅ →
          applyConclusion p concl w u fuel = some (.noProgress, none, p))
        ∧ (cell.number = none → cell.candidates = none →
          applyConclusion p concl w u fuel = some (.noProgress, none, p))
        ∧ (∀ S : Finset ℤ,
            effectiveCandidates cell = some S →
            ¬ (cell.number.isSome ∧ cell.candidates = some ∅) →
            (∀ posT valT, concl = .setVal posT valT →
              (∀ v, evalTerm u fuel valT w = some v →
                (∀ m : ℤ, v ≠ .int m) →
                applyConclusion p concl w u fuel =
                  some (.contradiction, some (r, c),
                    p.setCell r c (contradictionCell cell)))
              ∧ (∀ m : ℤ, evalTerm u fuel valT w = some (.int m) →
                  applyConclusion p concl w u fuel =
                    specOutcome p r c cell S (S ∩ {m})))
            ∧ (∀ posT op valT, concl = .excludeVal posT op valT →
                ∀ m : ℤ, evalTerm u fuel valT w = some (.int m) →
                  applyConclusion p concl w u fuel =
                    specOutcome p r c cell S (excludeFilter S op m))
            ∧ (∀ posT valTs, concl = .onlyVal posT valTs →
                ∀ vs, evalTermList u fuel valTs w = some vs →
                  applyConclusion p concl w u fuel =
                    specOutcome p r c cell S (S ∩ onlyAllowed vs)))) := by
  intro p concl w u fuel
  constructor
  · intro hev
    have hcalc : calculateNewCandidates p concl w u fuel = .noProgress := by
      unfold calculateNewCandidates
      simp [hev]
    exact applyConclusion_of_noProgress hcalc
  · intro r c cell hev hget
    have heffcur : effectiveCandidates cell = currentCandidates cell := rfl
    refine ⟨?_, ?_, ?_⟩
    · intro hguard
      have hcalc : calculateNewCandidates p concl w u fuel = .noProgress := by
        unfold calculateNewCandidates
        simp only [hev]
        rw [if_neg (by simp)]
        simp only [hget]
        rw [if_pos hguard]
      exact applyConclusion_of_noProgress hcalc
    · intro hnum hcand
      by_cases hguard : cell.number.isSome ∧ cell.candidates = some ∅
      · obtain ⟨h1, _⟩ := hguard
        rw [hnum] at h1
        exact absurd h1 (by simp)
      · have hcalc := calc_of_inner hev hget hguard
        have hcur : currentCandidates cell = none := by
          unfold currentCandidates
          rw [hnum, hcand]
        rw [hcur] at hcalc
        exact applyConclusion_of_noProgress hcalc
    · intro S hS hguard
      rw [heffcur] at hS
      refine ⟨?_, ?_, ?_⟩
      · intro posT valT hconcl
        subst hconcl
        constructor
        · intro v hv hnotint
          have hstep : calcStep S (.setVal posT valT) w u fuel = some none := by
            match v, hnotint with
            | .pos a b, _ => simp only [calcStep, hv]
            | .str s, _ => simp only [calcStep, hv]
            | .dir d, _ => simp only [calcStep, hv]
            | .int m, hni => exact absurd rfl (hni m)
          have hcalc := calc_of_inner hev hget hguard
          rw [hS] at hcalc
          simp only [hstep] at hcalc
          rw [applyConclusion_of_contradiction hcalc]
        · intro m hv
          have hstep : calcStep S (.setVal posT valT) w u fuel =
              some (some (S ∩ {m})) := by
            simp only [calcStep, hv]
          exact apply_from_step hev hget hguard hS hstep
      · intro posT op valT hconcl m hv
        subst hconcl
        have hstep : calcStep S (.excludeVal posT op valT) w u fuel =
            some (some (excludeFilter S op m)) := by
          simp only [calcStep, hv]
        exact apply_from_step hev hget hguard hS hstep
      · intro posT valTs hconcl vs hvs
        subst hconcl
        have hstep : calcStep S (.onlyVal posT valTs) w u fuel =
            some (some (S ∩ onlyAllowed vs)) := by
          simp only [calcStep, hvs]
        exact apply_from_step hev hget hguard hS hstep

/-! Concrete fixtures for the applier claims. -/

/-- `exclude(p, =, 0)` with position variable `p`. -/
def exConclExcl0 : Conclusion := .excludeVal (.var "p") "=" (.const (.int 0))

/-- Witness assignment binding `p` to cell `(0, 0)`. -/
def exW : Assignment := [("p", .pos 0 0)]

/-- 1×1 puzzle, pending cell with candidates `{0, 1}`. -/
def exPuzzlePending01 : Puzzle :=
  ⟨1, 1, [[⟨.east, none, some {0, 1}⟩]]⟩

/-- 1×1 puzzle, pending cell with candidates `{0}`. -/
def exPuzzlePending0 : Puzzle := ⟨1, 1, [[⟨.east, none, some {0}⟩]]⟩

/-- 1×1 puzzle, cell committed to 1 with candidates `{1}`. -/
def exPuzzleCommitted1 : Puzzle := ⟨1, 1, [[⟨.east, some 1, some {1}⟩]]⟩

/-- 1×1 puzzle, cell committed to 1 with an explicitly empty candidate
set (the state `apply_conclusion`'s early guard fires on). -/
def exPuzzleC3 : Puzzle := ⟨1, 1, [[⟨.east, some 1, some ∅⟩]]⟩

def exU01 : Universe :=
  createUniverse exPuzzlePending01 (computeAllPaths exPuzzlePending01)

def exU0 : Universe :=
  createUniverse exPuzzlePending0 (computeAllPaths exPuzzlePending0)

def exUC1 : Universe :=
  createUniverse exPuzzleCommitted1 (computeAllPaths exPuzzleCommitted1)

def exUC3 : Universe :=
  createUniverse exPuzzleC3 (computeAllPaths exPuzzleC3)

/-- Witness for C10 at concrete inputs: excluding 0 from a pending
`{0, 1}` cell computes `{1} ⊆ {0, 1}`, and the same conclusion on a cell
committed to 1 reports NO_PROGRESS with the puzzle unchanged. -/
theorem conclusions_only_shrink_witness :
    (({1} : Finset ℤ) ⊆ {0, 1}) ∧
    ((ConclusionApplicationResult.noProgress = .noProgress ∧
        exPuzzleCommitted1 = exPuzzleCommitted1) ∨
      ConclusionApplicationResult.noProgress = .contradiction) :=
  ⟨conclusions_only_shrink.1 exPuzzlePending01 exConclExcl0 exW exU01 10
      {1} (0, 0) ⟨.east, none, some {0, 1}⟩ {0, 1} (by decide),
    conclusions_only_shrink.2 exPuzzleCommitted1 exConclExcl0 exW exUC1 10
      0 0 ⟨.east, some 1, some {1}⟩ 1 .noProgress none exPuzzleCommitted1
      (by decide) (by decide) (by decide) (by decide)⟩

/-- Witness for C4 at concrete inputs: the undo form reports the same
contradiction the plain applier writes out (pending `{0}` cell, exclude
0), and undoing a progress write (pending `{0, 1}` cell, exclude 0)
restores the original puzzle. -/
theorem apply_with_undo_witness :
    (∃ loc cell,
      calculateNewCandidates exPuzzlePending0 exConclExcl0 exW exU0 10 =
        .contradiction loc cell ∧
      applyConclusion exPuzzlePending0 exConclExcl0 exW exU0 10 =
        some (.contradiction, some loc,
          exPuzzlePending0.setCell loc.1 loc.2 (contradictionCell cell))) ∧
    performUndo exPuzzleCommitted1 ⟨(0, 0), some {0, 1}, none⟩ =
      exPuzzlePending01 :=
  ⟨(apply_with_undo_atomic_reversible exPuzzlePending0 exConclExcl0 exW
      exU0 10).1.mp (by decide),
    (apply_with_undo_atomic_reversible exPuzzlePending01 exConclExcl0 exW
      exU01 10).2 exPuzzleCommitted1 ⟨(0, 0), some {0, 1}, none⟩
      (by decide)⟩

/-- Witness for the amended C3 at a concrete input: excluding 0 from the
pending `{0, 1}` cell follows the spec outcome for
`S' = excludeFilter S "=" 0`. -/
theorem apply_conclusion_characterisation_witness :
    applyConclusion exPuzzlePending01 exConclExcl0 exW exU01 10 =
      specOutcome exPuzzlePending01 0 0 ⟨.east, none, some {0, 1}⟩ {0, 1}
        (excludeFilter {0, 1} "=" 0) :=
  (((apply_conclusion_characterisation exPuzzlePending01 exConclExcl0 exW
      exU01 10).2 0 0 ⟨.east, none, some {0, 1}⟩ (by decide)
      (by decide)).2.2 {0, 1} (by decide) (by decide)).2.1
    (.var "p") "=" (.const (.int 0)) rfl 0 (by decide)

/-- Counterexample to C3 as frozen: on a cell committed to 1 whose
explicit candidate set is empty, a `Set` conclusion with the non-integer
value `"nil"` must, per the claim, report CONTRADICTION at the cell
(`S = {1}`, non-integer `Set` value) — but `apply_conclusion` returns
NO_PROGRESS, untouched puzzle, by the early-exit guard. -/
theorem apply_conclusion_claim_counterexample :
    evalTerm exUC3 10 (Term.const (.str "nil")) exW = some (.str "nil") ∧
    (∀ m : ℤ, Val.str "nil" ≠ .int m) ∧
    (exPuzzleC3.getCell 0 0).map Cell.number = some (some 1) ∧
    applyConclusion exPuzzleC3 (.setVal (.var "p") (.const (.str "nil")))
        exW exUC3 10 =
      some (.noProgress, none, exPuzzleC3) :=
  ⟨by decide, fun m h => Val.noConfusion h, by decide, by decide⟩

/-! ## solver/solver.py: the fixpoint solver -/

/-- `SolverStatus` enum. -/
inductive SolverStatus where
  | solved
  | noSolution
  | underconstrained
  deriving DecidableEq, Repr

/-- `SolverStep` dataclass.  The textual pieces of `contradiction_trace`
are abstracted to the rule names involved (the Python strings interpolate
witness and conclusion reprs; no control flow reads them). -/
structure SolverStep where
  ruleName : String
  ruleComplexity : ℕ
  witness : Assignment
  conclusionsApplied : List Conclusion
  puzzleState : Puzzle
  contradictionTrace : List String := []

/-- `SolverResult` dataclass.  The `rule_execution_time` wall-clock map is
dropped: it influences no other field and no control flow. -/
structure SolverResult where
  status : SolverStatus
  puzzle : Puzzle
  maxComplexityUsed : ℕ
  ruleApplicationCount : List (String × ℕ)
  steps : List SolverStep
  initialPuzzle : Option Puzzle := none
  contradictionLocation : Option (ℕ × ℕ) := none

/-- `Counter[name] += n` (insertion-ordered, like `collections.Counter`). -/
def counterAdd (cnt : List (String × ℕ)) (k : String) (n : ℕ) :
    List (String × ℕ) :=
  if cnt.any (fun kv => kv.1 = k) then
    cnt.map (fun kv => if kv.1 = k then (kv.1, kv.2 + n) else kv)
  else
    cnt ++ [(k, n)]

/-- Stable insertion of `x` after all earlier entries with key ≤ its key. -/
def insertSortedBy {α : Type} (key : α → ℕ) (x : α) : List α → List α
  | [] => [x]
  | y :: ys =>
    if key y ≤ key x then y :: insertSortedBy key x ys else x :: y :: ys

/-- Stable sort by a natural-number key (the result of Python's stable
`sorted(..., key=...)`). -/
def sortByKey {α : Type} (key : α → ℕ) (l : List α) : List α :=
  l.foldr (insertSortedBy key) []

/-- The elements of a finite set of integers in ascending order (the
iteration order of a Python set of small non-negative ints).  Defined by
quotient lifting so that it computes by kernel reduction. -/
def finsetAscList (s : Finset ℤ) : List ℤ :=
  Quot.lift (fun l => List.insertionSort (· ≤ ·) l)
    (fun a b hab =>
      List.eq_of_perm_of_sorted
        ((List.perm_insertionSort _ a).trans
          (hab.trans (List.perm_insertionSort _ b).symm))
        (List.sorted_insertionSort _ a) (List.sorted_insertionSort _ b))
    s.val

/-- `Solver._check_consistency` inner loop over the remaining positions. -/
def checkConsistencyGo (p : Puzzle) (pc : ℕ × ℕ → List (ℕ × ℕ)) :
    List (ℕ × ℕ) → Bool × Option String × Option (ℕ × ℕ)
  | [] => (true, none, none)
  | (r, c) :: rest =>
    match p.getCell r c with
    | none => checkConsistencyGo p pc rest
    | some cell =>
      if cell.number = none ∧
          (cell.candidates = none ∨ cell.candidates = some ∅) then
        (false, some "has no candidates left", some (r, c))
      else
        match cell.number with
        | some v =>
          if ((committedValuesOn p (pc (r, c))).card : ℤ) > v then
            (false, some "sees too many distinct values", some (r, c))
          else checkConsistencyGo p pc rest
        | none => checkConsistencyGo p pc rest

/-- `Solver._check_consistency`: every pending cell keeps a non-empty
candidate set, and no committed cell already sees more distinct committed
values than its own value. -/
def checkConsistency (p : Puzzle) (pc : ℕ × ℕ → List (ℕ × ℕ)) :
    Bool × Option String × Option (ℕ × ℕ) :=
  checkConsistencyGo p pc (gridPositions p.rows p.cols)

mutual

/-- `Solver._find_contradiction_optimized`.  The outer `Option` models a
raised exception; the inner one is found-trace-or-none.  All mutation is
local: every exit path has restored the entry state (the undo handles),
so no puzzle is returned. -/
def findContradiction (rules : List Rule) (pc : ℕ × ℕ → List (ℕ × ℕ)) :
    ℕ → Puzzle → ℕ → Option (Option (List String))
  | 0, _, _ => none
  | fuel + 1, p, depth =>
    match checkConsistency p pc with
    | (false, reason, _) =>
      some (some ["Inconsistent state: " ++ reason.getD ""])
    | (true, _, _) =>
      if depth = 0 then some none
      else fcRules rules pc fuel p depth rules
termination_by structural fuel => fuel

/-- Rule loop of `_find_contradiction_optimized` (skipping non-FO
rules). -/
def fcRules (rules : List Rule) (pc : ℕ × ℕ → List (ℕ × ℕ)) :
    ℕ → Puzzle → ℕ → List Rule → Option (Option (List String))
  | 0, _, _, _ => none
  | _ + 1, _, _, [] => some none
  | fuel + 1, p, depth, rule :: rest =>
    match rule with
    | .backtrack _ _ _ _ _ => fcRules rules pc fuel p depth rest
    | .fo name condition conclusions _ =>
      match checkAll (createUniverse p pc) fuel condition [] with
      | none => none
      | some witnesses =>
        match fcWitnesses rules pc fuel p depth name conclusions
            witnesses with
        | none => none
        | some (some trace) => some (some trace)
        | some none => fcRules rules pc fuel p depth rest
termination_by structural fuel => fuel

/-- Witness loop of `_find_contradiction_optimized`. -/
def fcWitnesses (rules : List Rule) (pc : ℕ × ℕ → List (ℕ × ℕ)) :
    ℕ → Puzzle → ℕ → String → List Conclusion → List Assignment →
    Option (Option (List String))
  | 0, _, _, _, _, _ => none
  | _ + 1, _, _, _, _, [] => some none
  | fuel + 1, p, depth, name, conclusions, w :: ws =>
    match fcConclusions rules pc fuel p depth name w conclusions with
    | none => none
    | some (some trace) => some (some trace)
    | some none => fcWitnesses rules pc fuel p depth name conclusions ws
termination_by structural fuel => fuel

/-- Conclusion loop of `_find_contradiction_optimized`: apply with undo,
recurse (or consistency-check at depth 1) on progress, undo and
continue. -/
def fcConclusions (rules : List Rule) (pc : ℕ × ℕ → List (ℕ × ℕ)) :
    ℕ → Puzzle → ℕ → String → Assignment → List Conclusion →
    Option (Option (List String))
  | 0, _, _, _, _, _ => none
  | _ + 1, _, _, _, _, [] => some none
  | fuel + 1, p, depth, name, w, concl :: rest =>
    match applyConclusionWithUndo p concl w (createUniverse p pc) fuel with
    | none => none
    | some .noProgress => fcConclusions rules pc fuel p depth name w rest
    | some .contradiction =>
      some (some ["Applied " ++ name, "CONTRADICTION"])
    | some (.progress p' _) =>
      let inner : Option (Option (List String)) :=
        if depth = 1 then
          match checkConsistency p' pc with
          | (false, reason, _) =>
            some (some ["Inconsistent state: " ++ reason.getD ""])
          | (true, _, _) => some none
        else findContradiction rules pc fuel p' (depth - 1)
      match inner with
      | none => none
      | some (some trace) => some (some (("Applied " ++ name) :: trace))
      | some none =>
        -- undo: continue from the state before this application
        fcConclusions rules pc fuel p depth name w rest
termination_by structural fuel => fuel

end

/-- Conclusion loop of `Solver._try_apply_rule`: apply each conclusion in
turn, collecting the ones that made progress; a contradiction aborts with
its location and the mutated puzzle. -/
def foConclusions (pc : ℕ × ℕ → List (ℕ × ℕ)) (fuel : ℕ) (w : Assignment) :
    Puzzle → List Conclusion → List Conclusion →
    Option ((List Conclusion × Puzzle) ⊕ (Option (ℕ × ℕ) × Puzzle))
  | p, [], applied => some (.inl (applied, p))
  | p, concl :: rest, applied =>
    match applyConclusion p concl w (createUniverse p pc) fuel with
    | none => none
    | some (.contradiction, loc, p') => some (.inr (loc, p'))
    | some (.progress, _, p') =>
      foConclusions pc fuel w p' rest (applied ++ [concl])
    | some (.noProgress, _, p') => foConclusions pc fuel w p' rest applied

/-- Witness loop of `Solver._try_apply_rule` for an FO rule: the first
witness with at least one PROGRESS conclusion commits a step. -/
def foWitnesses (pc : ℕ × ℕ → List (ℕ × ℕ)) (fuel : ℕ) (name : String)
    (complexity : ℕ) (conclusions : List Conclusion) :
    Puzzle → List Assignment → Option SolverResult
  | p, [] =>
    some { status := .underconstrained, puzzle := p, maxComplexityUsed := 0,
           ruleApplicationCount := [], steps := [] }
  | p, w :: ws =>
    match foConclusions pc fuel w p conclusions [] with
    | none => none
    | some (.inr (loc, p')) =>
      some { status := .noSolution, puzzle := p', maxComplexityUsed := 0,
             ruleApplicationCount := [], steps := [],
             contradictionLocation := loc }
    | some (.inl (applied, p')) =>
      if applied.isEmpty then
        foWitnesses pc fuel name complexity conclusions p' ws
      else
        some { status := .underconstrained, puzzle := p',
               maxComplexityUsed := 0, ruleApplicationCount := [],
               steps := [{ ruleName := name, ruleComplexity := complexity,
                           witness := w, conclusionsApplied := applied,
                           puzzleState := p' }] }

/-- Value loop of `Solver._apply_backtrack_rule` for one pending cell. -/
def btValues (allRules : List Rule) (pc : ℕ × ℕ → List (ℕ × ℕ)) (fuel : ℕ)
    (hypothesisRules : List Rule) (ruleName : String)
    (ruleComplexity ruleDepth : ℕ) :
    Puzzle → ℕ → ℕ → List ℤ →
    Option (Option SolverResult)
  | _, _, _, [] => some none
  | p, r, c, val :: vals =>
    match p.getCell r c with
    | none => none
    | some cell =>
      let working :=
        p.setCell r c { cell with number := some val, candidates := some {val} }
      match findContradiction hypothesisRules pc fuel working ruleDepth with
      | none => none
      | some none =>
        btValues allRules pc fuel hypothesisRules ruleName ruleComplexity
          ruleDepth p r c vals
      | some (some trace) =>
        let conclusion : Conclusion :=
          .excludeVal (.var "p") "=" (.const (.int val))
        let backtrackWitness : Assignment := [("p", .pos r c)]
        match applyConclusion p conclusion backtrackWitness
            (createUniverse p pc) fuel with
        | none => none
        | some (.contradiction, loc, p') =>
          some (some
            { status := .noSolution, puzzle := p',
              maxComplexityUsed := ruleComplexity,
              ruleApplicationCount := [(ruleName, 1)], steps := [],
              contradictionLocation := loc })
        | some (.progress, _, p') =>
          some (some
            { status := .underconstrained, puzzle := p',
              maxComplexityUsed := ruleComplexity,
              ruleApplicationCount := [(ruleName, 1)],
              steps := [{ ruleName := ruleName,
                          ruleComplexity := ruleComplexity,
                          witness := backtrackWitness,
                          conclusionsApplied := [conclusion],
                          puzzleState := p',
                          contradictionTrace :=
                            ("Assuming a value:") :: trace }] })
        | some (.noProgress, _, _) =>
          btValues allRules pc fuel hypothesisRules ruleName ruleComplexity
            ruleDepth p r c vals

/-- Cell loop of `Solver._apply_backtrack_rule`. -/
def btCells (allRules : List Rule) (pc : ℕ × ℕ → List (ℕ × ℕ)) (fuel : ℕ)
    (hypothesisRules : List Rule) (ruleName : String)
    (ruleComplexity ruleDepth : ℕ) :
    Puzzle → List (ℕ × ℕ × Finset ℤ) → Option SolverResult
  | p, [] =>
    some { status := .underconstrained, puzzle := p, maxComplexityUsed := 0,
           ruleApplicationCount := [], steps := [] }
  | p, (r, c, cands) :: rest =>
    match btValues allRules pc fuel hypothesisRules ruleName ruleComplexity
        ruleDepth p r c (finsetAscList cands) with
    | none => none
    | some (some res) => some res
    | some none =>
      btCells allRules pc fuel hypothesisRules ruleName ruleComplexity
        ruleDepth p rest

/-- The `candidates_map` of `_apply_backtrack_rule`: pending cells with
non-empty candidate sets, row-major, stably sorted by candidate count. -/
def candidatesMap (p : Puzzle) : List (ℕ × ℕ × Finset ℤ) :=
  sortByKey (fun x => x.2.2.card)
    ((gridPositions p.rows p.cols).filterMap fun (r, c) =>
      match p.getCell r c with
      | none => none
      | some cell =>
        match cell.number with
        | some _ => none
        | none =>
          match cell.candidates with
          | some s => if s ≠ ∅ then some (r, c, s) else none
          | none => none)

/-- `Solver._apply_backtrack_rule`. -/
def applyBacktrackRule (allRules : List Rule)
    (pc : ℕ × ℕ → List (ℕ × ℕ)) (fuel : ℕ) (p : Puzzle) (name : String)
    (complexity ruleDepth maxRuleComplexity : ℕ) : Option SolverResult :=
  let hypothesisRules :=
    allRules.filter fun r => r.complexity ≤ maxRuleComplexity
  btCells allRules pc fuel hypothesisRules name complexity ruleDepth p
    (candidatesMap p)

/-- `Solver._try_apply_rule`. -/
def tryApplyRule (allRules : List Rule) (pc : ℕ × ℕ → List (ℕ × ℕ))
    (fuel : ℕ) (p : Puzzle) (rule : Rule) : Option SolverResult :=
  match rule with
  | .backtrack name complexity _ ruleDepth maxRuleComplexity =>
    applyBacktrackRule allRules pc fuel p name complexity ruleDepth
      maxRuleComplexity
  | .fo name condition conclusions complexity =>
    match checkAll (createUniverse p pc) fuel condition [] with
    | none => none
    | some witnesses =>
      foWitnesses pc fuel name complexity conclusions p witnesses

/-- Per-pass outcome of the main loop's rule iteration. -/
inductive PassOutcome where
  | noSolution (inner : SolverResult)
  | progress (rule : Rule) (inner : SolverResult)
  | nothing (puzzle : Puzzle)

/-- One pass of the main loop: try each rule in (complexity) order; stop
at the first NO_SOLUTION or at the first rule whose result carries
steps. -/
def runRules (allRules : List Rule) (pc : ℕ × ℕ → List (ℕ × ℕ))
    (fuel : ℕ) : Puzzle → List Rule → Option PassOutcome
  | p, [] => some (.nothing p)
  | p, rule :: rest =>
    match tryApplyRule allRules pc fuel p rule with
    | none => none
    | some res =>
      if res.status = .noSolution then some (.noSolution res)
      else if res.steps.isEmpty then runRules allRules pc fuel res.puzzle rest
      else some (.progress rule res)

/-- `Solver._determine_final_status`. -/
def determineFinalStatus (p : Puzzle) : SolverStatus :=
  if p.validate then .solved else .underconstrained

/-- The `while True` fixpoint loop of `Solver.solve`, carrying the
accumulated steps, max complexity, and per-rule application counts. -/
def solveLoop (allRules : List Rule) (pc : ℕ × ℕ → List (ℕ × ℕ))
    (evalFuel : ℕ) (initialPuzzle : Puzzle) :
    ℕ → Puzzle → List SolverStep → ℕ → List (String × ℕ) →
    Option SolverResult
  | 0, _, _, _, _ => none
  | fuel + 1, p, steps, maxUsed, counts =>
    match runRules allRules pc evalFuel p allRules with
    | none => none
    | some (.noSolution res) =>
      some { status := .noSolution, puzzle := res.puzzle,
             maxComplexityUsed := max maxUsed res.maxComplexityUsed,
             ruleApplicationCount := counts, steps := steps,
             initialPuzzle := some initialPuzzle,
             contradictionLocation := res.contradictionLocation }
    | some (.progress rule res) =>
      solveLoop allRules pc evalFuel initialPuzzle fuel res.puzzle
        (steps ++ res.steps)
        (max maxUsed rule.complexity)
        (counterAdd counts rule.name res.steps.length)
    | some (.nothing p') =>
      some { status := determineFinalStatus p', puzzle := p',
             maxComplexityUsed := maxUsed, ruleApplicationCount := counts,
             steps := steps, initialPuzzle := some initialPuzzle }

/-- `Solver._initialize_candidates`: pending cells get
`{0, …, max(rows, cols) − 1}`, committed cells `{their value}`. -/
def initializeCandidates (p : Puzzle) : Puzzle :=
  let limit := max p.rows p.cols
  let initial : Finset ℤ := ((List.range limit).map fun i => (i : ℤ)).toFinset
  { p with
    grid := p.grid.map fun row =>
      row.map fun cell =>
        match cell.number with
        | none => { cell with candidates := some initial }
        | some v => { cell with candidates := some ({v} : Finset ℤ) } }

/-- `Solver.solve`: rules sorted by complexity at construction
(`Solver.__init__`), optional path cache, candidate initialisation unless
reusing, then the fixpoint loop. -/
def solve (rules : List Rule) (evalFuel loopFuel : ℕ) (puzzle : Puzzle)
    (pathCache : Option (ℕ × ℕ → List (ℕ × ℕ)))
    (reuseCandidates : Bool) : Option SolverResult :=
  let sortedRules := sortByKey Rule.complexity rules
  let pc :=
    match pathCache with
    | none => computeAllPaths puzzle
    | some f => f
  let initialPuzzleCopy := puzzle
  let working := if ¬ reuseCandidates then initializeCandidates puzzle
    else puzzle
  solveLoop sortedRules pc evalFuel initialPuzzleCopy loopFuel working [] 0 []

/-! ## C1 and C5: properties of the fixpoint loop -/

theorem solveLoop_final_status (allRules : List Rule)
    (pc : ℕ × ℕ → List (ℕ × ℕ)) (evalFuel : ℕ) (initP : Puzzle) :
    ∀ (fuel : ℕ) (p : Puzzle) (steps : List SolverStep) (maxUsed : ℕ)
      (counts : List (String × ℕ)) (res : SolverResult),
    solveLoop allRules pc evalFuel initP fuel p steps maxUsed counts =
      some res →
    res.status ≠ .noSolution →
    res.status = determineFinalStatus res.puzzle := by
  intro fuel
  induction fuel with
  | zero => intro p steps maxUsed counts res h _; exact Option.noConfusion h
  | succ n ih =>
    intro p steps maxUsed counts res h hns
    unfold solveLoop at h
    cases hrun : runRules allRules pc evalFuel p allRules with
    | none => rw [hrun] at h; exact Option.noConfusion h
    | some outcome =>
      rw [hrun] at h
      match outcome with
      | .noSolution inner =>
        simp only at h
        have := Option.some.inj h
        rw [← this] at hns
        exact absurd rfl hns
      | .progress rule inner =>
        exact ih inner.puzzle (steps ++ inner.steps)
          (max maxUsed rule.complexity)
          (counterAdd counts rule.name inner.steps.length) res h hns
      | .nothing p' =>
        simp only at h
        have := Option.some.inj h
        rw [← this]

/-- C1.  When the fixpoint loop of `Solver.solve` terminates without a
contradiction (result status is not NO_SOLUTION), the status is SOLVED
iff the final working puzzle satisfies `validate()`, and otherwise it is
UNDERCONSTRAINED. -/
theorem solver_final_status_iff_validate :
    ∀ (rules : List Rule) (evalFuel loopFuel : ℕ) (p : Puzzle)
      (pathCache : Option (ℕ × ℕ → List (ℕ × ℕ))) (reuse : Bool)
      (res : SolverResult),
    solve rules evalFuel loopFuel p pathCache reuse = some res →
    res.status ≠ .noSolution →
    (res.status = .solved ↔ res.puzzle.validate = true) ∧
    (res.puzzle.validate = false → res.status = .underconstrained) := by
  intro rules evalFuel loopFuel p pathCache reuse res h hns
  unfold solve at h
  have hst := solveLoop_final_status _ _ _ _ _ _ _ _ _ _ h hns
  unfold determineFinalStatus at hst
  by_cases hv : res.puzzle.validate = true
  · rw [if_pos hv] at hst
    exact ⟨⟨fun _ => hv, fun _ => hst⟩, fun hf => absurd hv (by simp [hf])⟩
  · rw [if_neg hv] at hst
    constructor
    · constructor
      · intro hs; rw [hst] at hs; exact SolverStatus.noConfusion hs
      · intro hvt; exact absurd hvt hv
    · intro _; exact hst

/-- `max over a list of complexities, 0 when empty`. -/
def listMax (l : List ℕ) : ℕ := l.foldr max 0

theorem listMax_append (l1 l2 : List ℕ) :
    listMax (l1 ++ l2) = max (listMax l1) (listMax l2) := by
  induction l1 with
  | nil => simp [listMax]
  | cons a l ih =>
    simp only [listMax, List.cons_append, List.foldr_cons] at *
    rw [ih]
    omega

theorem foWitnesses_steps (pc : ℕ × ℕ → List (ℕ × ℕ)) (fuel : ℕ)
    (name : String) (complexity : ℕ) (concls : List Conclusion) :
    ∀ (ws : List Assignment) (p : Puzzle) (r : SolverResult),
    foWitnesses pc fuel name complexity concls p ws = some r →
    r.steps = [] ∨ ∃ s, r.steps = [s] ∧ s.ruleComplexity = complexity := by
  intro ws
  induction ws with
  | nil =>
    intro p r h
    have := Option.some.inj h
    rw [← this]
    exact Or.inl rfl
  | cons w ws ih =>
    intro p r h
    unfold foWitnesses at h
    cases hc : foConclusions pc fuel w p concls [] with
    | none => rw [hc] at h; exact Option.noConfusion h
    | some out =>
      rw [hc] at h
      match out with
      | .inr (loc, p') =>
        simp only at h
        have := Option.some.inj h
        rw [← this]
        exact Or.inl rfl
      | .inl (applied, p') =>
        simp only at h
        by_cases hemp : applied.isEmpty
        · rw [if_pos hemp] at h
          exact ih p' r h
        · rw [if_neg hemp] at h
          have := Option.some.inj h
          rw [← this]
          exact Or.inr ⟨_, rfl, rfl⟩

theorem btValues_steps (allRules : List Rule) (pc : ℕ × ℕ → List (ℕ × ℕ))
    (fuel : ℕ) (hyp : List Rule) (name : String)
    (complexity ruleDepth : ℕ) :
    ∀ (vals : List ℤ) (p : Puzzle) (rr cc : ℕ) (r : SolverResult),
    btValues allRules pc fuel hyp name complexity ruleDepth p rr cc vals =
      some (some r) →
    r.steps = [] ∨ ∃ s, r.steps = [s] ∧ s.ruleComplexity = complexity := by
  intro vals
  induction vals with
  | nil =>
    intro p rr cc r h
    exact Option.noConfusion (Option.some.inj h)
  | cons v vals ih =>
    intro p rr cc r h
    unfold btValues at h
    cases hget : p.getCell rr cc with
    | none => rw [hget] at h; exact Option.noConfusion h
    | some cell =>
      rw [hget] at h
      simp only at h
      cases hfc : findContradiction hyp pc fuel
          (p.setCell rr cc
            { cell with number := some v, candidates := some {v} })
          ruleDepth with
      | none => rw [hfc] at h; exact Option.noConfusion h
      | some traceOpt =>
        rw [hfc] at h
        match traceOpt with
        | none => exact ih p rr cc r h
        | some trace =>
          simp only at h
          cases happ : applyConclusion p
              (.excludeVal (.var "p") "=" (.const (.int v)))
              [("p", .pos rr cc)] (createUniverse p pc) fuel with
          | none => rw [happ] at h; exact Option.noConfusion h
          | some out =>
            rw [happ] at h
            obtain ⟨st, loc, p'⟩ := out
            match st with
            | .contradiction =>
              simp only at h
              have := Option.some.inj h
              have := Option.some.inj this
              rw [← this]
              exact Or.inl rfl
            | .progress =>
              simp only at h
              have := Option.some.inj h
              have := Option.some.inj this
              rw [← this]
              exact Or.inr ⟨_, rfl, rfl⟩
            | .noProgress => exact ih p rr cc r h

theorem btCells_steps (allRules : List Rule) (pc : ℕ × ℕ → List (ℕ × ℕ))
    (fuel : ℕ) (hyp : List Rule) (name : String)
    (complexity ruleDepth : ℕ) :
    ∀ (cells : List (ℕ × ℕ × Finset ℤ)) (p : Puzzle) (r : SolverResult),
    btCells allRules pc fuel hyp name complexity ruleDepth p cells =
      some r →
    r.steps = [] ∨ ∃ s, r.steps = [s] ∧ s.ruleComplexity = complexity := by
  intro cells
  induction cells with
  | nil =>
    intro p r h
    have := Option.some.inj h
    rw [← this]
    exact Or.inl rfl
  | cons cell cells ih =>
    intro p r h
    obtain ⟨rr, cc, cands⟩ := cell
    unfold btCells at h
    cases hv : btValues allRules pc fuel hyp name complexity ruleDepth p
        rr cc (finsetAscList cands) with
    | none => rw [hv] at h; exact Option.noConfusion h
    | some out =>
      rw [hv] at h
      match out with
      | some res0 =>
        simp only at h
        have := Option.some.inj h
        rw [← this]
        exact btValues_steps allRules pc fuel hyp name complexity ruleDepth
          (finsetAscList cands) p rr cc res0 hv
      | none => exact ih p r h

theorem tryApplyRule_steps (allRules : List Rule)
    (pc : ℕ × ℕ → List (ℕ × ℕ)) (fuel : ℕ) (p : Puzzle) (rule : Rule)
    (r : SolverResult) (h : tryApplyRule allRules pc fuel p rule = some r) :
    r.steps = [] ∨
      ∃ s, r.steps = [s] ∧ s.ruleComplexity = rule.complexity := by
  unfold tryApplyRule at h
  match rule with
  | .backtrack name complexity btDepth ruleDepth maxRC =>
    exact btCells_steps allRules pc fuel _ name complexity ruleDepth _ p r h
  | .fo name condition conclusions complexity =>
    simp only at h
    cases hca : checkAll (createUniverse p pc) fuel condition [] with
    | none => rw [hca] at h; exact Option.noConfusion h
    | some witnesses =>
      rw [hca] at h
      exact foWitnesses_steps pc fuel name complexity conclusions witnesses
        p r h

theorem runRules_progress (allRules : List Rule)
    (pc : ℕ × ℕ → List (ℕ × ℕ)) (fuel : ℕ) :
    ∀ (rules : List Rule) (p : Puzzle) (rule : Rule) (r : SolverResult),
    runRules allRules pc fuel p rules = some (.progress rule r) →
    ∃ s, r.steps = [s] ∧ s.ruleComplexity = rule.complexity := by
  intro rules
  induction rules with
  | nil =>
    intro p rule r h
    exact PassOutcome.noConfusion (Option.some.inj h)
  | cons rule0 rest ih =>
    intro p rule r h
    unfold runRules at h
    cases htry : tryApplyRule allRules pc fuel p rule0 with
    | none => rw [htry] at h; exact Option.noConfusion h
    | some res =>
      simp only [htry] at h
      by_cases hns : res.status = .noSolution
      · rw [if_pos hns] at h
        exact PassOutcome.noConfusion (Option.some.inj h)
      · rw [if_neg hns] at h
        by_cases hemp : res.steps.isEmpty
        · rw [if_pos hemp] at h
          exact ih res.puzzle rule r h
        · rw [if_neg hemp] at h
          have hi := Option.some.inj h
          injection hi with h1 h2
          rcases tryApplyRule_steps allRules pc fuel p rule0 res htry with
            he | hs
          · rw [he] at hemp; exact absurd rfl hemp
          · rw [← h2, ← h1]
            exact hs

theorem solveLoop_max_complexity (allRules : List Rule)
    (pc : ℕ × ℕ → List (ℕ × ℕ)) (evalFuel : ℕ) (initP : Puzzle) :
    ∀ (fuel : ℕ) (p : Puzzle) (steps : List SolverStep) (maxUsed : ℕ)
      (counts : List (String × ℕ)) (res : SolverResult),
    maxUsed = listMax (steps.map (fun s => s.ruleComplexity)) →
    solveLoop allRules pc evalFuel initP fuel p steps maxUsed counts =
      some res →
    res.status ≠ .noSolution →
    res.maxComplexityUsed =
      listMax (res.steps.map (fun s => s.ruleComplexity)) := by
  intro fuel
  induction fuel with
  | zero =>
    intro p steps maxUsed counts res _ h _
    exact Option.noConfusion h
  | succ n ih =>
    intro p steps maxUsed counts res hinv h hns
    unfold solveLoop at h
    cases hrun : runRules allRules pc evalFuel p allRules with
    | none => rw [hrun] at h; exact Option.noConfusion h
    | some outcome =>
      rw [hrun] at h
      match outcome with
      | .noSolution inner =>
        simp only at h
        have := Option.some.inj h
        rw [← this] at hns
        exact absurd rfl hns
      | .progress rule inner =>
        obtain ⟨s, hsteps, hcomp⟩ :=
          runRules_progress allRules pc evalFuel allRules p rule inner hrun
        refine ih inner.puzzle (steps ++ inner.steps)
          (max maxUsed rule.complexity)
          (counterAdd counts rule.name inner.steps.length) res ?_ h hns
        rw [hsteps, hinv, ← hcomp]
        rw [List.map_append, listMax_append]
        simp [listMax]
      | .nothing p' =>
        simp only at h
        have := Option.some.inj h
        rw [← this]
        exact hinv

/-- C5 (amended).  In every `SolverResult` whose status is SOLVED or
UNDERCONSTRAINED, `max_complexity_used` equals the maximum over the
result's steps of their rule complexity (0 when the step list is empty).
On NO_SOLUTION results the field can exceed that maximum: the
backtrack-rule contradiction path contributes its rule's complexity while
recording no step. -/
theorem solver_max_complexity_of_steps :
    ∀ (rules : List Rule) (evalFuel loopFuel : ℕ) (p : Puzzle)
      (pathCache : Option (ℕ × ℕ → List (ℕ × ℕ))) (reuse : Bool)
      (res : SolverResult),
    solve rules evalFuel loopFuel p pathCache reuse = some res →
    res.status ≠ .noSolution →
    res.maxComplexityUsed =
      listMax (res.steps.map (fun s => s.ruleComplexity)) := by
  intro rules evalFuel loopFuel p pathCache reuse res h hns
  unfold solve at h
  exact solveLoop_max_complexity _ _ _ _ _ _ _ _ _ _ (by simp [listMax])
    h hns

/-! Concrete fixtures for the solver claims. -/

/-- 1×1 already-solved puzzle (`[→0]`). -/
def exSolvedPuzzle : Puzzle := ⟨1, 1, [[⟨.east, some 0, none⟩]]⟩

/-- The result of solving `exSolvedPuzzle` with no rules. -/
def exSolveRes : SolverResult :=
  { status := .solved, puzzle := initializeCandidates exSolvedPuzzle,
    maxComplexityUsed := 0, ruleApplicationCount := [], steps := [],
    initialPuzzle := some exSolvedPuzzle }

/-- `exists p (val(p) = 0) => exclude(p, =, 0)` at complexity 1. -/
def exRuleA : Rule :=
  .fo "ruleA"
    (.existsPos ["p"] (.eq (.func "val" [.var "p"]) (.const (.int 0))))
    [.excludeVal (.var "p") "=" (.const (.int 0))] 1

/-- A backtrack rule of complexity 5 driving rules up to complexity 1. -/
def exRuleBT : Rule := .backtrack "bt" 5 1 1 1

/-- 1×1 blank puzzle (`[→.]`). -/
def exPuzzleBlank : Puzzle := ⟨1, 1, [[⟨.east, none, none⟩]]⟩

/-- Witness for C1 at a concrete input: solving the already-solved 1×1
puzzle with no rules yields SOLVED, and the iff with `validate()` holds
there. -/
theorem solver_final_status_witness :
    (exSolveRes.status = .solved ↔ exSolveRes.puzzle.validate = true) ∧
    (exSolveRes.puzzle.validate = false →
      exSolveRes.status = .underconstrained) :=
  solver_final_status_iff_validate [] 5 5 exSolvedPuzzle none false
    exSolveRes rfl (by decide)

/-- Witness for the amended C5 at a concrete input: the no-rules run on
the solved 1×1 puzzle has `max_complexity_used = 0 = max over steps`. -/
theorem solver_max_complexity_witness :
    exSolveRes.maxComplexityUsed =
      listMax (exSolveRes.steps.map (fun s => s.ruleComplexity)) :=
  solver_max_complexity_of_steps [] 5 5 exSolvedPuzzle none false
    exSolveRes rfl (by decide)

/-- Counterexample to C5 as frozen: on the blank 1×1 puzzle with the
exclusion rule and a complexity-5 backtrack rule, the backtrack rule's
final exclusion empties the cell's candidate set; the solver returns
NO_SOLUTION with an empty step list yet `max_complexity_used = 5 ≠ 0`. -/
theorem solver_max_complexity_counterexample :
    (solve [exRuleA, exRuleBT] 30 10 exPuzzleBlank none false).map
        (fun r => (r.status, r.maxComplexityUsed,
          listMax (r.steps.map (fun s => s.ruleComplexity)))) =
      some (.noSolution, 5, 0) ∧ (5 : ℕ) ≠ 0 :=
  ⟨by decide, by decide⟩

/-! ## type_checking.py -/

/-- The `Type` enum of `type_checking.py` (named `PyType` here to avoid
clashing with Lean's `Type`). -/
inductive PyType where
  | position
  | number
  | direction
  | unknown
  deriving DecidableEq

/-- Scopes and constants maps: insertion-ordered string/type pairs. -/
abbrev TypeScope := List (String × PyType)

def scopeGet (sc : TypeScope) (k : String) : Option PyType :=
  (sc.find? (fun kv => kv.1 = k)).map (·.2)

def scopeInsert (sc : TypeScope) (k : String) (v : PyType) : TypeScope :=
  if sc.any (fun kv => kv.1 = k) then
    sc.map (fun kv => if kv.1 = k then (k, v) else kv)
  else
    sc ++ [(k, v)]

/-- `TYPE_CONSTANTS` of `solver/definitions.py`. -/
def TYPE_CONSTANTS : TypeScope := [("OOB", .position), ("nil", .number)]

/-- `TYPE_FUNCTIONS` of `solver/definitions.py`. -/
def TYPE_FUNCTIONS : String → Option (List PyType × PyType) := fun name =>
  if name = "next" then some ([.position], .position)
  else if name = "val" then some ([.position], .number)
  else if name = "ahead" then some ([.position], .number)
  else if name = "behind" then some ([.position], .number)
  else if name = "between_free" then some ([.position, .position], .number)
  else if name = "ahead_free" then some ([.position], .number)
  else if name = "dir" then some ([.position], .direction)
  else if name = "sees_distinct" then some ([.position], .number)
  else if name = "sees_distinct_candidates" then some ([.position], .number)
  else if name = "min_candidate" then some ([.position], .number)
  else if name = "max_candidate" then some ([.position], .number)
  else if name = "add" then some ([.number, .number], .number)
  else none

/-- `TYPE_RELATIONS` of `solver/definitions.py`. -/
def TYPE_RELATIONS : String → Option (List PyType) := fun name =>
  if name = "points_at" then some [.position, .position]
  else if name = "candidate" then some [.position, .number]
  else if name = "sees_value" then some [.position, .number]
  else if name = "<" then some [.number, .number]
  else if name = ">" then some [.number, .number]
  else if name = "<=" then some [.number, .number]
  else if name = ">=" then some [.number, .number]
  else none

mutual

/-- `_infer_term_type` of `type_checking.py` (fuelled; `fuel = 0` models
a recursion limit, never reached by the rules the repository checks). -/
def inferTermType (constants : TypeScope) (scope : TypeScope)
    (functions : Option (String → Option (List PyType × PyType))) :
    ℕ → Term → Except String PyType
  | 0, _ => .error "recursion limit"
  | _ + 1, .var name =>
    match scopeGet scope name with
    | none => .error ("Undefined variable: " ++ name)
    | some t => .ok t
  | _ + 1, .const (.int _) => .ok .number
  | _ + 1, .const (.str s) =>
    match scopeGet constants s with
    | some t => .ok t
    | none => .ok .unknown
  | fuel + 1, .func name args =>
    if name = "+" ∨ name = "-" then
      inferArith constants scope functions fuel args
    else
      match functions with
      | none => .error "FunctionCall usage requires functions map"
      | some fns =>
        match fns name with
        | none => .error ("Unknown function: " ++ name)
        | some (argTypes, retType) =>
          if args.length ≠ argTypes.length then .error "function arity"
          else
            match inferArgs constants scope functions fuel
                (args.zip argTypes) with
            | .error e => .error e
            | .ok _ => .ok retType

/-- The built-in `+`/`-` branch of `_infer_term_type`. -/
def inferArith (constants : TypeScope) (scope : TypeScope)
    (functions : Option (String → Option (List PyType × PyType))) :
    ℕ → List Term → Except String PyType
  | 0, _ => .error "recursion limit"
  | fuel + 1, [l, r] =>
    match inferTermType constants scope functions fuel l with
    | .error e => .error e
    | .ok lt =>
      match inferTermType constants scope functions fuel r with
      | .error e => .error e
      | .ok rt =>
        if lt ≠ .number ∨ rt ≠ .number then
          .error "arith operands must be Number"
        else .ok .number
  | _ + 1, _ => .error "arith arity"

/-- Argument loop of `_infer_term_type`: infer each argument and compare
with the declared sort, in order. -/
def inferArgs (constants : TypeScope) (scope : TypeScope)
    (functions : Option (String → Option (List PyType × PyType))) :
    ℕ → List (Term × PyType) → Except String Unit
  | 0, _ => .error "recursion limit"
  | _ + 1, [] => .ok ()
  | fuel + 1, (arg, expected) :: rest =>
    match inferTermType constants scope functions fuel arg with
    | .error e => .error e
    | .ok actual =>
      if actual ≠ expected then .error "argument type mismatch"
      else inferArgs constants scope functions fuel rest

end

mutual

/-- `_gather_condition_variables`: collect `Exists`-bound variables for
the conclusion scope, descending through And/Or/Not but stopping at
universal quantifiers. -/
def gatherConditionVariables : Formula → TypeScope → TypeScope
  | .and fs, scope => gatherList fs scope
  | .or fs, scope => gatherList fs scope
  | .not f, scope => gatherConditionVariables f scope
  | .existsPos vars f, scope =>
    gatherConditionVariables f
      (vars.foldl (fun sc v => scopeInsert sc v .position) scope)
  | .existsNum vars f, scope =>
    gatherConditionVariables f
      (vars.foldl (fun sc v => scopeInsert sc v .number) scope)
  | .forallPos _ _, scope => scope
  | .forallNum _ _, scope => scope
  | .rel _ _, scope => scope
  | .eq _ _, scope => scope

def gatherList : List Formula → TypeScope → TypeScope
  | [], scope => scope
  | f :: fs, scope => gatherList fs (gatherConditionVariables f scope)

end

mutual

/-- `_check_formula` of `type_checking.py` (fuelled for the term
inference). -/
def checkFormula (constants : TypeScope)
    (functions : String → Option (List PyType × PyType))
    (relations : String → Option (List PyType)) (fuel : ℕ) :
    Formula → TypeScope → Except String Unit
  | .and fs, scope => checkFormulaList constants functions relations fuel
      fs scope
  | .or fs, scope => checkFormulaList constants functions relations fuel
      fs scope
  | .not f, scope => checkFormula constants functions relations fuel f scope
  | .existsPos vars f, scope =>
    checkFormula constants functions relations fuel f
      (vars.foldl (fun sc v => scopeInsert sc v .position) scope)
  | .forallPos vars f, scope =>
    checkFormula constants functions relations fuel f
      (vars.foldl (fun sc v => scopeInsert sc v .position) scope)
  | .existsNum vars f, scope =>
    checkFormula constants functions relations fuel f
      (vars.foldl (fun sc v => scopeInsert sc v .number) scope)
  | .forallNum vars f, scope =>
    checkFormula constants functions relations fuel f
      (vars.foldl (fun sc v => scopeInsert sc v .number) scope)
  | .eq l r, scope =>
    match inferTermType constants scope (some functions) fuel l with
    | .error e => .error e
    | .ok lt =>
      match inferTermType constants scope (some functions) fuel r with
      | .error e => .error e
      | .ok rt =>
        if lt ≠ rt then .error "Equality mismatch" else .ok ()
  | .rel name args, scope =>
    match relations name with
    | none => .error ("Unknown relation: " ++ name)
    | some expectedTypes =>
      if args.length ≠ expectedTypes.length then .error "relation arity"
      else inferArgs constants scope (some functions) fuel
        (args.zip expectedTypes)

def checkFormulaList (constants : TypeScope)
    (functions : String → Option (List PyType × PyType))
    (relations : String → Option (List PyType)) (fuel : ℕ) :
    List Formula → TypeScope → Except String Unit
  | [], _ => .ok ()
  | f :: fs, scope =>
    match checkFormula constants functions relations fuel f scope with
    | .error e => .error e
    | .ok _ => checkFormulaList constants functions relations fuel fs scope

end

/-- Value loop of `_check_conclusion` for `OnlyVal`. -/
def checkOnlyValues (constants : TypeScope) (scope : TypeScope)
    (functions : String → Option (List PyType × PyType)) (fuel : ℕ) :
    List Term → Except String Unit
  | [] => .ok ()
  | v :: vs =>
    match inferTermType constants scope (some functions) fuel v with
    | .error e => .error e
    | .ok t =>
      if t ≠ .number then .error "OnlyVal values must be Number"
      else checkOnlyValues constants scope functions fuel vs

/-- `_check_conclusion` of `type_checking.py`. -/
def checkConclusion (constants : TypeScope) (scope : TypeScope)
    (functions : String → Option (List PyType × PyType)) (fuel : ℕ) :
    Conclusion → Except String Unit
  | .setVal position value =>
    match inferTermType constants scope (some functions) fuel position with
    | .error e => .error e
    | .ok pt =>
      if pt ≠ .position then .error "SetVal position must be Position"
      else
        match inferTermType constants scope (some functions) fuel value with
        | .error e => .error e
        | .ok vt =>
          if vt ≠ .number then .error "SetVal value must be Number"
          else .ok ()
  | .excludeVal position _ value =>
    match inferTermType constants scope (some functions) fuel position with
    | .error e => .error e
    | .ok pt =>
      if pt ≠ .position then .error "ExcludeVal position must be Position"
      else
        match inferTermType constants scope (some functions) fuel value with
        | .error e => .error e
        | .ok vt =>
          if vt ≠ .number then .error "ExcludeVal value must be Number"
          else .ok ()
  | .onlyVal position values =>
    match inferTermType constants scope (some functions) fuel position with
    | .error e => .error e
    | .ok pt =>
      if pt ≠ .position then .error "OnlyVal position must be Position"
      else checkOnlyValues constants scope functions fuel values

/-- Conclusion loop of `check_rule`. -/
def checkConclusions (constants : TypeScope) (scope : TypeScope)
    (functions : String → Option (List PyType × PyType)) (fuel : ℕ) :
    List Conclusion → Except String Unit
  | [] => .ok ()
  | c :: cs =>
    match checkConclusion constants scope functions fuel c with
    | .error e => .error e
    | .ok _ => checkConclusions constants scope functions fuel cs

/-- `check_rule` of `type_checking.py`: backtrack rules pass trivially;
FO rules type-check their condition, gather the conclusion scope from
the condition, and check each conclusion in it. -/
def checkRule (rule : Rule) (constants : TypeScope)
    (functions : String → Option (List PyType × PyType))
    (relations : String → Option (List PyType)) (fuel : ℕ) :
    Except String Unit :=
  match rule with
  | .backtrack _ _ _ _ _ => .ok ()
  | .fo _ condition conclusions _ =>
    match checkFormula constants functions relations fuel condition [] with
    | .error e => .error e
    | .ok _ =>
      let scope := gatherConditionVariables condition []
      checkConclusions constants scope functions fuel conclusions

/-- `isOk` on the `Except` results of the type checker. -/
def exceptIsOk : Except String Unit → Bool
  | .ok _ => true
  | .error _ => false

mutual

/-- `v` occurs as a variable in the term. -/
def occursInTerm (v : String) : Term → Bool
  | .var name => name = v
  | .const _ => false
  | .func _ args => occursInTermList v args

def occursInTermList (v : String) : List Term → Bool
  | [] => false
  | t :: ts => occursInTerm v t || occursInTermList v ts

end

/-- `v` occurs in one of the conclusion's terms. -/
def occursInConclusion (v : String) : Conclusion → Bool
  | .setVal position value => occursInTerm v position || occursInTerm v value
  | .excludeVal position _ value =>
    occursInTerm v position || occursInTerm v value
  | .onlyVal position values =>
    occursInTerm v position || occursInTermList v values

/-! ### C6: unscoped conclusion variables are rejected -/

theorem inferTermType_err (v : String) (constants scope : TypeScope)
    (fnsOpt : Option (String → Option (List PyType × PyType)))
    (hv : scopeGet scope v = none) :
    ∀ fuel : ℕ,
    (∀ t, occursInTerm v t = true →
      ∃ e, inferTermType constants scope fnsOpt fuel t = .error e) ∧
    (∀ args : List Term, occursInTermList v args = true →
      ∃ e, inferArith constants scope fnsOpt fuel args = .error e) ∧
    (∀ pairs : List (Term × PyType),
      occursInTermList v (pairs.map Prod.fst) = true →
      ∃ e, inferArgs constants scope fnsOpt fuel pairs = .error e) := by
  intro fuel
  induction fuel with
  | zero =>
    exact ⟨fun t _ => ⟨_, rfl⟩, fun args _ => ⟨_, rfl⟩,
      fun pairs _ => ⟨_, rfl⟩⟩
  | succ fuel ih =>
    refine ⟨?_, ?_, ?_⟩
    · intro t hocc
      match t with
      | .var name =>
        unfold occursInTerm at hocc
        have hnv : name = v := by simpa using hocc
        subst hnv
        unfold inferTermType
        rw [hv]
        exact ⟨_, rfl⟩
      | .const c => cases c <;> simp [occursInTerm] at hocc
      | .func name args =>
        unfold occursInTerm at hocc
        unfold inferTermType
        by_cases harith : name = "+" ∨ name = "-"
        · rw [if_pos harith]
          exact ih.2.1 args hocc
        · rw [if_neg harith]
          match fnsOpt with
          | none => exact ⟨_, rfl⟩
          | some fns =>
            simp only
            match fns name with
            | none => exact ⟨_, rfl⟩
            | some (argTypes, retType) =>
              simp only
              by_cases hlen : args.length ≠ argTypes.length
              · rw [if_pos hlen]
                exact ⟨_, rfl⟩
              · rw [if_neg hlen]
                have hmap : (args.zip argTypes).map Prod.fst = args := by
                  apply List.map_fst_zip
                  omega
                obtain ⟨e, he⟩ :=
                  ih.2.2 (args.zip argTypes) (by rw [hmap]; exact hocc)
                rw [he]
                exact ⟨e, rfl⟩
    · intro args hocc
      match args with
      | [] => simp [occursInTermList] at hocc
      | [a] =>
        unfold inferArith
        exact ⟨_, rfl⟩
      | a :: b :: c :: rest =>
        unfold inferArith
        exact ⟨_, rfl⟩
      | [l, r] =>
        unfold inferArith
        by_cases hl : occursInTerm v l = true
        · obtain ⟨e, he⟩ := ih.1 l hl
          rw [he]
          exact ⟨e, rfl⟩
        · have hr : occursInTerm v r = true := by
            simp only [occursInTermList, Bool.or_eq_true] at hocc
            rcases hocc with h | h | h
            · exact absurd h hl
            · exact h
            · simp [occursInTermList] at h
          cases hli : inferTermType constants scope fnsOpt fuel l with
          | error e => exact ⟨e, rfl⟩
          | ok lt =>
            simp only
            obtain ⟨e, he⟩ := ih.1 r hr
            rw [he]
            exact ⟨e, rfl⟩
    · intro pairs hocc
      match pairs with
      | [] => simp [occursInTermList] at hocc
      | (a, expected) :: rest =>
        unfold inferArgs
        by_cases ha : occursInTerm v a = true
        · obtain ⟨e, he⟩ := ih.1 a ha
          rw [he]
          exact ⟨e, rfl⟩
        · have hrest : occursInTermList v (rest.map Prod.fst) = true := by
            simp only [List.map_cons, occursInTermList, Bool.or_eq_true]
              at hocc
            rcases hocc with h | h
            · exact absurd h ha
            · exact h
          cases hai : inferTermType constants scope fnsOpt fuel a with
          | error e => exact ⟨e, rfl⟩
          | ok actual =>
            simp only
            by_cases hexp : actual ≠ expected
            · rw [if_pos hexp]
              exact ⟨_, rfl⟩
            · rw [if_neg hexp]
              exact ih.2.2 rest hrest

theorem checkOnlyValues_err (v : String) (constants scope : TypeScope)
    (functions : String → Option (List PyType × PyType)) (fuel : ℕ)
    (hv : scopeGet scope v = none) :
    ∀ vs, occursInTermList v vs = true →
    ∃ e, checkOnlyValues constants scope functions fuel vs = .error e := by
  intro vs
  induction vs with
  | nil => intro h; simp [occursInTermList] at h
  | cons t ts ih =>
    intro h
    unfold checkOnlyValues
    by_cases ht : occursInTerm v t = true
    · obtain ⟨e, he⟩ :=
        (inferTermType_err v constants scope (some functions) hv fuel).1 t ht
      rw [he]
      exact ⟨e, rfl⟩
    · have hts : occursInTermList v ts = true := by
        unfold occursInTermList at h
        rcases (Bool.or_eq_true _ _).mp h with h' | h'
        · exact absurd h' ht
        · exact h'
      cases hti : inferTermType constants scope (some functions) fuel t with
      | error e => exact ⟨e, rfl⟩
      | ok tt =>
        simp only
        by_cases htn : tt ≠ .number
        · rw [if_pos htn]; exact ⟨_, rfl⟩
        · rw [if_neg htn]; exact ih hts

theorem checkConclusion_err (v : String) (constants scope : TypeScope)
    (functions : String → Option (List PyType × PyType)) (fuel : ℕ)
    (hv : scopeGet scope v = none) (cl : Conclusion)
    (hocc : occursInConclusion v cl = true) :
    ∃ e, checkConclusion constants scope functions fuel cl = .error e := by
  have hterm :=
    (inferTermType_err v constants scope (some functions) hv fuel).1
  match cl with
  | .setVal position value =>
    simp only [occursInConclusion] at hocc
    simp only [checkConclusion]
    by_cases hp : occursInTerm v position = true
    · obtain ⟨e, he⟩ := hterm position hp
      rw [he]; exact ⟨e, rfl⟩
    · have hval : occursInTerm v value = true := by
        rcases (Bool.or_eq_true _ _).mp hocc with h | h
        · exact absurd h hp
        · exact h
      cases hpi : inferTermType constants scope (some functions) fuel
          position with
      | error e => exact ⟨e, rfl⟩
      | ok pt =>
        simp only
        by_cases hpt : pt ≠ .position
        · rw [if_pos hpt]; exact ⟨_, rfl⟩
        · rw [if_neg hpt]
          obtain ⟨e, he⟩ := hterm value hval
          rw [he]
          exact ⟨e, rfl⟩
  | .excludeVal position op value =>
    simp only [occursInConclusion] at hocc
    simp only [checkConclusion]
    by_cases hp : occursInTerm v position = true
    · obtain ⟨e, he⟩ := hterm position hp
      rw [he]; exact ⟨e, rfl⟩
    · have hval : occursInTerm v value = true := by
        rcases (Bool.or_eq_true _ _).mp hocc with h | h
        · exact absurd h hp
        · exact h
      cases hpi : inferTermType constants scope (some functions) fuel
          position with
      | error e => exact ⟨e, rfl⟩
      | ok pt =>
        simp only
        by_cases hpt : pt ≠ .position
        · rw [if_pos hpt]; exact ⟨_, rfl⟩
        · rw [if_neg hpt]
          obtain ⟨e, he⟩ := hterm value hval
          rw [he]
          exact ⟨e, rfl⟩
  | .onlyVal position values =>
    simp only [occursInConclusion] at hocc
    simp only [checkConclusion]
    by_cases hp : occursInTerm v position = true
    · obtain ⟨e, he⟩ := hterm position hp
      rw [he]; exact ⟨e, rfl⟩
    · have hval : occursInTermList v values = true := by
        rcases (Bool.or_eq_true _ _).mp hocc with h | h
        · exact absurd h hp
        · exact h
      cases hpi : inferTermType constants scope (some functions) fuel
          position with
      | error e => exact ⟨e, rfl⟩
      | ok pt =>
        simp only
        by_cases hpt : pt ≠ .position
        · rw [if_pos hpt]; exact ⟨_, rfl⟩
        · rw [if_neg hpt]
          exact checkOnlyValues_err v constants scope functions fuel hv
            values hval

theorem checkConclusions_err (v : String) (constants scope : TypeScope)
    (functions : String → Option (List PyType × PyType)) (fuel : ℕ)
    (hv : scopeGet scope v = none) :
    ∀ cls : List Conclusion,
    (∃ cl ∈ cls, occursInConclusion v cl = true) →
    ∃ e, checkConclusions constants scope functions fuel cls = .error e := by
  intro cls
  induction cls with
  | nil => rintro ⟨cl, hmem, _⟩; cases hmem
  | cons c cs ih =>
    rintro ⟨cl, hmem, hocc⟩
    unfold checkConclusions
    cases hci : checkConclusion constants scope functions fuel c with
    | error e => exact ⟨e, rfl⟩
    | ok _ =>
      simp only
      rcases List.mem_cons.mp hmem with hc | hc
      · subst hc
        obtain ⟨e, he⟩ :=
          checkConclusion_err v constants scope functions fuel hv cl hocc
        rw [he] at hci
        exact Except.noConfusion hci
      · exact ih ⟨cl, hc, hocc⟩

/-- C6 (amended).  A conclusion variable that is not bound by the
conclusion scope gathered from the condition — the gatherer collects
existential binders descending through conjunction, disjunction *and
negation*, and stops only at universal quantifiers — makes `check_rule`
fail with a TypeError.  In particular variables bound only under a
universal quantifier are rejected; variables bound only under a negation
are, contrary to the frozen claim, in scope and accepted. -/
theorem check_rule_unscoped_conclusion_variable :
    ∀ (name : String) (condition : Formula)
      (conclusions : List Conclusion) (complexity : ℕ)
      (constants : TypeScope)
      (functions : String → Option (List PyType × PyType))
      (relations : String → Option (List PyType)) (fuel : ℕ) (v : String),
    (∃ cl ∈ conclusions, occursInConclusion v cl = true) →
    scopeGet (gatherConditionVariables condition []) v = none →
    exceptIsOk (checkRule (.fo name condition conclusions complexity)
      constants functions relations fuel) = false := by
  intro name condition conclusions complexity constants functions relations
    fuel v hocc hscope
  unfold checkRule
  cases hcf : checkFormula constants functions relations fuel condition []
    with
  | error e => simp [exceptIsOk, hcf]
  | ok _ =>
    obtain ⟨e, he⟩ := checkConclusions_err v constants
      (gatherConditionVariables condition []) functions fuel hscope
      conclusions hocc
    simp [exceptIsOk, hcf, he]

/-- A rule whose conclusion uses a variable bound only under a universal
quantifier. -/
def exRuleForall : Rule :=
  .fo "univ" (.forallPos ["q"] (.eq (.var "q") (.var "q")))
    [.setVal (.var "q") (.const (.int 0))] 1

/-- A rule whose conclusion uses a variable bound only under a
negation. -/
def exRuleNeg : Rule :=
  .fo "neg" (.not (.existsPos ["p"] (.eq (.var "p") (.var "p"))))
    [.setVal (.var "p") (.const (.int 0))] 1

/-- Witness for the amended C6 at a concrete input: the rule whose
conclusion uses the universally bound `q` fails `check_rule`. -/
theorem check_rule_unscoped_witness :
    exceptIsOk (checkRule exRuleForall TYPE_CONSTANTS TYPE_FUNCTIONS
      TYPE_RELATIONS 20) = false :=
  check_rule_unscoped_conclusion_variable "univ"
    (.forallPos ["q"] (.eq (.var "q") (.var "q")))
    [.setVal (.var "q") (.const (.int 0))] 1 TYPE_CONSTANTS TYPE_FUNCTIONS
    TYPE_RELATIONS 20 "q"
    ⟨.setVal (.var "q") (.const (.int 0)), List.mem_singleton.mpr rfl,
      by decide⟩
    (by decide)

/-- Counterexample to C6 as frozen: a rule whose conclusion uses `p`
bound *only under a negation* in the condition passes `check_rule`
without any TypeError. -/
theorem check_rule_negation_counterexample :
    exceptIsOk (checkRule exRuleNeg TYPE_CONSTANTS TYPE_FUNCTIONS
      TYPE_RELATIONS 20) = true ∧
    occursInConclusion "p" (.setVal (.var "p") (.const (.int 0))) = true :=
  ⟨by decide, by decide⟩

/-! ## generator/generator.py and generator/constraints.py -/

/-- `GenerationStats` dataclass. -/
structure GenerationStats where
  puzzlesSuccessfullyGenerated : ℕ := 0
  puzzlesRejectedConstraints : ℕ := 0
  puzzlesRejectedNoSolution : ℕ := 0
  puzzlesRejectedExcessiveGuessing : ℕ := 0
  puzzlesRejectedTimeout : ℕ := 0
  rejectionsPerConstraint : List (String × ℕ) := []
  deriving DecidableEq

/-- A `Constraint` object as the generator consumes it: a name, a
`check` over the solver trace, and a `pre_check` over an arrows-only
puzzle (defaulting to accept-all in the Python base class). -/
structure Constraint where
  name : String
  check : SolverResult → Bool
  preCheck : Puzzle → Bool := fun _ => true

/-- Randomness oracle: a stream of naturals consumed as indices by the
`random.choice` / `random.sample` calls. -/
abbrev RandOracle := List ℕ

def oracleNext : RandOracle → ℕ × RandOracle
  | [] => (0, [])
  | n :: rest => (n, rest)

/-- `random.choice(seq)` driven by the oracle (callers guarantee the
sequence is non-empty). -/
def oracleChoice {α : Type} (l : List α) (d : α) (o : RandOracle) :
    α × RandOracle :=
  let (n, o') := oracleNext o
  (l.getD (n % l.length) d, o')

/-- `random.sample(population, k)` driven by the oracle: pick an index
into the remaining population, remove it, repeat. -/
def oracleSample {α : Type} : ℕ → List α → RandOracle →
    List α × RandOracle
  | 0, _, o => ([], o)
  | _ + 1, [], o => ([], o)
  | k + 1, x :: xs, o =>
    let pool := x :: xs
    let (n, o') := oracleNext o
    let i := n % pool.length
    match pool[i]? with
    | none => ([], o')
    | some y =>
      let (rest, o'') := oracleSample k (pool.eraseIdx i) o'
      (y :: rest, o'')

/-- The direction list of `_create_random_grid` / the rotation list. -/
def allowedDirections (allowDiagonals : Bool) : List Direction :=
  if allowDiagonals then
    [.north, .east, .south, .west,
      .northEast, .southEast, .southWest, .northWest]
  else
    [.north, .east, .south, .west]

/-- One row of `_create_random_grid`. -/
def createRandomRow (dirs : List Direction) :
    ℕ → RandOracle → List Cell × RandOracle
  | 0, o => ([], o)
  | n + 1, o =>
    let (d, o') := oracleChoice dirs .north o
    let (rest, o'') := createRandomRow dirs n o'
    (⟨d, none, none⟩ :: rest, o'')

/-- `Generator._create_random_grid`. -/
def createRandomGrid (rows cols : ℕ) (allowDiagonals : Bool)
    (o : RandOracle) : List (List Cell) × RandOracle :=
  let dirs := allowedDirections allowDiagonals
  let rec go : ℕ → RandOracle → List (List Cell) × RandOracle
    | 0, o => ([], o)
    | n + 1, o =>
      let (row, o') := createRandomRow dirs cols o
      let (rest, o'') := go n o'
      (row :: rest, o'')
  go rows o

/-- A cell whose direction points immediately out of the grid. -/
def isOutwardCell (p : Puzzle) (rc : ℕ × ℕ) : Bool :=
  match p.getCell rc.1 rc.2 with
  | none => false
  | some cell =>
    let (dr, dc) := cell.direction.delta
    ! inBounds p.rows p.cols ((rc.1 : ℤ) + dr) ((rc.2 : ℤ) + dc)

/-- The number of outward-pointing cells of a puzzle. -/
def outwardCount (p : Puzzle) : ℕ :=
  (gridPositions p.rows p.cols).countP (isOutwardCell p)

/-- Flip one cell's direction to its opposite (the loop body of
`_flip_outward_arrows`; the `opposites` table is total). -/
def flipCell (p : Puzzle) (rc : ℕ × ℕ) : Puzzle :=
  match p.getCell rc.1 rc.2 with
  | none => p
  | some cell =>
    p.setCell rc.1 rc.2 { cell with direction := cell.direction.opposite }

/-- `Generator._flip_outward_arrows`: count the outward arrows, and flip
a uniformly sampled excess of them to their opposites.
`int(total_cells * 0.1)` is modelled as `total_cells / 10` (they agree
for every realistic grid size). -/
def flipOutwardArrows (p : Puzzle) (o : RandOracle) : Puzzle × RandOracle :=
  let totalCells := p.rows * p.cols
  let outwardArrows := (gridPositions p.rows p.cols).filter (isOutwardCell p)
  let targetCount := totalCells / 10
  if outwardArrows.length > targetCount then
    let (toFlip, o') :=
      oracleSample (outwardArrows.length - targetCount) outwardArrows o
    (toFlip.foldl flipCell p, o')
  else
    (p, o)

/-- `Generator._get_failing_constraint`: the first constraint whose
`check` rejects the trace. -/
def getFailingConstraint (trace : SolverResult)
    (constraints : List Constraint) : Option Constraint :=
  constraints.find? fun c => ! c.check trace

/-- Write the recorded guesses into a copy of the base puzzle (the
`clean_puzzle` construction of `Generator.generate`). -/
def applyGuesses (base : Puzzle) (gs : List (ℕ × ℕ × ℤ)) : Puzzle :=
  gs.foldl
    (fun q g =>
      match q.getCell g.1 g.2.1 with
      | some cell =>
        q.setCell g.1 g.2.1
          { cell with number := some g.2.2, candidates := some ({g.2.2}) }
      | none => q)
    base

/-- `rejections_per_constraint[name] += 1`. -/
def bumpRejection (m : List (String × ℕ)) (k : String) :
    List (String × ℕ) :=
  if m.any (fun kv => kv.1 = k) then
    m.map (fun kv => if kv.1 = k then (kv.1, kv.2 + 1) else kv)
  else
    m ++ [(k, 1)]

/-- `⌈n · frac⌉` for the fractional caps, in exact rational arithmetic
(`math.ceil(n * 0.15)` ⇒ `ceilFrac n 15`, `math.ceil(n * 0.1)` ⇒
`ceilFrac n 10`; they agree with the float computation for every
realistic size). -/
def ceilFrac (n percent : ℕ) : ℕ := (n * percent + 99) / 100

/-- Result of one iteration chain of the generator's inner solver loop:
either `generate` returns, or the attempt is rejected and the outer loop
continues with updated statistics (and, faithfully to the source, the
*unreset* `extra_fills` counter and `guesses` list). -/
inductive InnerOutcome where
  | finished (result : Option Puzzle × GenerationStats)
  | rejected (stats : GenerationStats) (extraFills : ℕ)
    (guesses : List (ℕ × ℕ × ℤ)) (o : RandOracle)

/-- The inner `while True` solver loop of `Generator.generate`. -/
def generateInner (rules : List Rule) (evalFuel loopFuel : ℕ)
    (rows cols : ℕ) (allowDiagonals : Bool)
    (constraints : List Constraint) :
    ℕ → Puzzle → Puzzle → (ℕ × ℕ → List (ℕ × ℕ)) → Bool → ℕ →
    GenerationStats → ℕ → List (ℕ × ℕ × ℤ) → RandOracle →
    Option InnerOutcome
  | 0, _, _, _, _, _, _, _, _, _ => none
  | fuel + 1, current, base, pc, reuse, modifications, stats, extraFills,
      guesses, o =>
    match solve rules evalFuel loopFuel current (some pc) reuse with
    | none => none
    | some trace =>
      if trace.status = .solved then
        let clean := applyGuesses base guesses
        match solve rules evalFuel loopFuel clean (some pc) false with
        | none => none
        | some finalTrace =>
          match getFailingConstraint finalTrace constraints with
          | none =>
            some (.finished (some clean,
              { stats with puzzlesSuccessfullyGenerated :=
                  stats.puzzlesSuccessfullyGenerated + 1 }))
          | some failing =>
            some (.rejected
              { stats with
                puzzlesRejectedConstraints :=
                  stats.puzzlesRejectedConstraints + 1
                rejectionsPerConstraint :=
                  bumpRejection stats.rejectionsPerConstraint failing.name }
              extraFills guesses o)
      else if trace.status = .underconstrained then
        let limit := max (ceilFrac (rows * cols) 15) 3
        if extraFills ≥ limit then
          some (.rejected
            { stats with puzzlesRejectedExcessiveGuessing :=
                stats.puzzlesRejectedExcessiveGuessing + 1 }
            extraFills guesses o)
        else
          let current' := trace.puzzle
          let emptyCells := (gridPositions rows cols).filter fun rc =>
            match current'.getCell rc.1 rc.2 with
            | some cell => cell.number.isNone
            | none => false
          if emptyCells.isEmpty then
            some (.rejected
              { stats with puzzlesRejectedNoSolution :=
                  stats.puzzlesRejectedNoSolution + 1 }
              extraFills guesses o)
          else
            let (rc, o') := oracleChoice emptyCells (0, 0) o
            match current'.getCell rc.1 rc.2 with
            | none => none
            | some cell =>
              match cell.candidates with
              | none =>
                some (.rejected
                  { stats with puzzlesRejectedNoSolution :=
                      stats.puzzlesRejectedNoSolution + 1 }
                  extraFills guesses o')
              | some cands =>
                if cands = ∅ then
                  some (.rejected
                    { stats with puzzlesRejectedNoSolution :=
                        stats.puzzlesRejectedNoSolution + 1 }
                    extraFills guesses o')
                else
                  let (val, o'') := oracleChoice (finsetAscList cands) 0 o'
                  let cell' : Cell :=
                    { cell with
                        number := some val
                        candidates := some ({val}) }
                  let current'' := current'.setCell rc.1 rc.2 cell'
                  generateInner rules evalFuel loopFuel rows cols
                    allowDiagonals constraints fuel current'' base pc true
                    modifications stats (extraFills + 1)
                    (guesses ++ [(rc.1, rc.2, val)]) o''
      else
        -- NO_SOLUTION: rotate the arrow at the contradiction, reset to base
        let maxModifications := max (ceilFrac (rows * cols) 10) 3
        match trace.contradictionLocation with
        | some (r, c) =>
          if modifications < maxModifications then
            match base.getCell r c with
            | none => none
            | some cell =>
              let allowedDirs := allowedDirections allowDiagonals
              let currentIdx :=
                if cell.direction ∈ allowedDirs then
                  allowedDirs.indexOf cell.direction
                else 0
              let newDir :=
                allowedDirs.getD ((currentIdx + 1) % allowedDirs.length)
                  .north
              let base' := base.setCell r c { cell with direction := newDir }
              let current' := base'
              generateInner rules evalFuel loopFuel rows cols allowDiagonals
                constraints fuel current' base' (computeAllPaths current')
                false (modifications + 1) stats 0 [] o
          else
            some (.rejected
              { stats with puzzlesRejectedNoSolution :=
                  stats.puzzlesRejectedNoSolution + 1 }
              extraFills guesses o)
        | none =>
          some (.rejected
            { stats with puzzlesRejectedNoSolution :=
                stats.puzzlesRejectedNoSolution + 1 }
            extraFills guesses o)

/-- The outer attempts loop of `Generator.generate`.  The solver's rules
stand in for `create_solver(max_complexity)` (the `config/rules.yaml`
the factory loads is not part of the sources). -/
def generateOuter (rules : List Rule) (evalFuel loopFuel innerFuel : ℕ)
    (rows cols : ℕ) (allowDiagonals : Bool)
    (constraints : List Constraint) (maxAttempts : ℤ) :
    ℕ → GenerationStats → ℕ → List (ℕ × ℕ × ℤ) → RandOracle →
    Option (Option Puzzle × GenerationStats)
  | 0, _, _, _, _ => none
  | fuel + 1, stats, extraFills, guesses, o =>
    let totalAttempts : ℤ :=
      (stats.puzzlesSuccessfullyGenerated : ℤ) +
        stats.puzzlesRejectedConstraints +
        stats.puzzlesRejectedNoSolution +
        stats.puzzlesRejectedExcessiveGuessing
    if totalAttempts ≥ maxAttempts ∧ maxAttempts ≠ -1 then
      some (none, stats)
    else
      let (grid, o1) := createRandomGrid rows cols allowDiagonals o
      let puzzle0 : Puzzle := ⟨rows, cols, grid⟩
      let (current, o2) := flipOutwardArrows puzzle0 o1
      match generateInner rules evalFuel loopFuel rows cols allowDiagonals
          constraints innerFuel current current (computeAllPaths current)
          false 0 stats extraFills guesses o2 with
      | none => none
      | some (.finished result) => some result
      | some (.rejected stats' extraFills' guesses' o') =>
        generateOuter rules evalFuel loopFuel innerFuel rows cols
          allowDiagonals constraints maxAttempts fuel stats' extraFills'
          guesses' o'

/-- `Generator.generate`: fresh statistics, `extra_fills = 0` and an
empty guess list initialised once, before the attempts loop. -/
def generate (rules : List Rule) (evalFuel loopFuel innerFuel : ℕ)
    (rows cols : ℕ) (allowDiagonals : Bool)
    (constraints : List Constraint) (maxAttempts : ℤ)
    (attemptFuel : ℕ) (o : RandOracle) :
    Option (Option Puzzle × GenerationStats) :=
  generateOuter rules evalFuel loopFuel innerFuel rows cols allowDiagonals
    constraints maxAttempts attemptFuel {} 0 [] o

/-! ### Generation fixtures -/

/-- A constraint whose `check` accepts every trace but whose `pre_check`
rejects every puzzle. -/
def exConstraintPC : Constraint :=
  { name := "pc", check := fun _ => true, preCheck := fun _ => false }

/-- `exists p q. val(p) = nil and val(q) = nil and not p = q => set(p, 1)`:
fills a cell with 1 as long as two distinct cells are uncommitted. -/
def exRuleFill : Rule :=
  .fo "fill"
    (.existsPos ["p", "q"] (.and
      [.eq (.func "val" [.var "p"]) (.const (.str "nil")),
       .eq (.func "val" [.var "q"]) (.const (.str "nil")),
       .not (.eq (.var "p") (.var "q"))]))
    [.setVal (.var "p") (.const (.int 1))] 1

/-- The puzzle produced by the rule-free 1×1 generation run. -/
def exGenPuzzlePC : Puzzle := ⟨1, 1, [[⟨.south, some 0, some ({0})⟩]]⟩

/-- Statistics of a run that succeeds on the first attempt. -/
def exStatsPC : GenerationStats := { puzzlesSuccessfullyGenerated := 1 }

/-- The clean puzzle returned by the 1×2 generation run under
`exRuleFill`: only the guessed cell is filled. -/
def exCleanC2 : Puzzle :=
  ⟨1, 2, [[⟨.east, none, none⟩, ⟨.west, some 1, some ({1})⟩]]⟩

/-! ### Claim C7: pre-checks during generation -/

theorem find?_map_comm {α β : Type} (f : α → β) (p : α → Bool)
    (q : β → Bool) (h : ∀ a, q (f a) = p a) :
    ∀ l : List α, (l.map f).find? q = (l.find? p).map f
  | [] => rfl
  | a :: l => by
    simp only [List.map_cons, List.find?_cons, h a]
    cases p a
    · simpa using find?_map_comm f p q h l
    · rfl

theorem getFailingConstraint_map_preCheck (trace : SolverResult)
    (g : Constraint → Puzzle → Bool) (cs : List Constraint) :
    getFailingConstraint trace (cs.map fun c => { c with preCheck := g c })
      = (getFailingConstraint trace cs).map
          fun c => { c with preCheck := g c } :=
  by
    unfold getFailingConstraint
    exact find?_map_comm (fun c => { c with preCheck := g c })
      (fun c => ! c.check trace) (fun c => ! c.check trace) (fun _ => rfl) cs

theorem generateInner_map_preCheck (rules : List Rule)
    (ef lf rows cols : ℕ) (ad : Bool) (cs : List Constraint)
    (g : Constraint → Puzzle → Bool) (fuel : ℕ) :
    ∀ current base pc reuse mods stats exf gs o,
      generateInner rules ef lf rows cols ad
          (cs.map fun c => { c with preCheck := g c }) fuel current base pc
          reuse mods stats exf gs o =
        generateInner rules ef lf rows cols ad cs fuel current base pc reuse
          mods stats exf gs o := by
  induction fuel with
  | zero => intros; rfl
  | succ fuel ih =>
    intro current base pc reuse mods stats exf gs o
    simp only [generateInner]
    cases hsol : solve rules ef lf current (some pc) reuse with
    | none => rfl
    | some trace =>
      by_cases hs : trace.status = .solved
      · simp only [if_pos hs]
        cases hsol2 :
            solve rules ef lf (applyGuesses base gs) (some pc) false with
        | none => rfl
        | some ft =>
          simp only [getFailingConstraint_map_preCheck]
          cases getFailingConstraint ft cs <;> rfl
      · simp only [if_neg hs]
        by_cases hu : trace.status = .underconstrained
        · simp only [if_pos hu, ih]
        · simp only [if_neg hu, ih]

theorem generateOuter_map_preCheck (rules : List Rule)
    (ef lf innerFuel rows cols : ℕ) (ad : Bool) (cs : List Constraint)
    (g : Constraint → Puzzle → Bool) (ma : ℤ) (fuel : ℕ) :
    ∀ stats exf gs o,
      generateOuter rules ef lf innerFuel rows cols ad
          (cs.map fun c => { c with preCheck := g c }) ma fuel stats exf gs o
        = generateOuter rules ef lf innerFuel rows cols ad cs ma fuel stats
            exf gs o := by
  induction fuel with
  | zero => intros; rfl
  | succ fuel ih =>
    intro stats exf gs o
    simp only [generateOuter, generateInner_map_preCheck, ih]

/-- **C7** (amended).  `Generator.generate` never consults any
constraint's `pre_check`: its result is unchanged when every constraint's
`pre_check` is replaced by an arbitrary predicate.  (The claimed
reject-on-first-failing-pre-check step does not exist in
`Generator.generate`; see the counterexample.) -/
theorem generate_ignores_pre_check (rules : List Rule)
    (ef lf innerFuel rows cols : ℕ) (ad : Bool) (cs : List Constraint)
    (ma : ℤ) (af : ℕ) (o : RandOracle) (g : Constraint → Puzzle → Bool) :
    generate rules ef lf innerFuel rows cols ad
        (cs.map fun c => { c with preCheck := g c }) ma af o =
      generate rules ef lf innerFuel rows cols ad cs ma af o := by
  simp only [generate, generateOuter_map_preCheck]

/-- **C7** counterexample: a generation run over a constraint whose
`pre_check` rejects every puzzle — in particular the arrows-only puzzle
of the attempt — still succeeds and returns a puzzle, so no attempt is
rejected by a failing `pre_check`. -/
theorem generate_pre_check_counterexample :
    (∀ q : Puzzle, exConstraintPC.preCheck q = false) ∧
      generate [] 5 5 5 1 1 false [exConstraintPC] 100 4 [0, 0, 0, 0] =
        some (some exGenPuzzlePC, exStatsPC) :=
  ⟨fun _ => rfl, by decide⟩

/-! ### Claim C2: re-solving a generated puzzle -/

/-- Two puzzles with the same dimensions and the same arrow directions
everywhere (they may differ in committed numbers and candidates). -/
def sameFrame (p q : Puzzle) : Prop :=
  p.rows = q.rows ∧ p.cols = q.cols ∧
    ∀ r c, (p.getCell r c).map Cell.direction =
      (q.getCell r c).map Cell.direction

theorem sameFrame_refl (p : Puzzle) : sameFrame p p :=
  ⟨rfl, rfl, fun _ _ => rfl⟩

theorem sameFrame_trans {p q s : Puzzle} (h1 : sameFrame p q)
    (h2 : sameFrame q s) : sameFrame p s :=
  ⟨h1.1.trans h2.1, h1.2.1.trans h2.2.1,
    fun r c => (h1.2.2 r c).trans (h2.2.2 r c)⟩

theorem pathFrom_congr {p q : Puzzle} (h : sameFrame p q) (r c : ℕ) :
    p.pathFrom r c = q.pathFrom r c := by
  obtain ⟨hr, hc, hdir⟩ := h
  have hd := hdir r c
  cases hp : p.getCell r c with
  | none =>
    cases hq : q.getCell r c with
    | none => simp only [Puzzle.pathFrom, hp, hq]
    | some cell => rw [hp, hq] at hd; simp at hd
  | some cell =>
    cases hq : q.getCell r c with
    | none => rw [hp, hq] at hd; simp at hd
    | some cell' =>
      rw [hp, hq] at hd
      simp only [Option.map_some', Option.some.injEq] at hd
      simp only [Puzzle.pathFrom, hp, hq, hr, hc, hd]

theorem computeAllPaths_congr {p q : Puzzle} (h : sameFrame p q) :
    computeAllPaths p = computeAllPaths q := by
  funext rc
  obtain ⟨r, c⟩ := rc
  simp only [computeAllPaths, h.1, h.2.1, pathFrom_congr h]

theorem sameFrame_setCell (q : Puzzle) (r c : ℕ) (cell cell' : Cell)
    (hget : q.getCell r c = some cell)
    (hdir : cell'.direction = cell.direction) :
    sameFrame (q.setCell r c cell') q := by
  refine ⟨rfl, rfl, fun r' c' => ?_⟩
  by_cases he : (r, c) = (r', c')
  · rw [Prod.mk.injEq] at he
    obtain ⟨rfl, rfl⟩ := he
    rw [Puzzle.getCell_setCell_self q r c cell' (by rw [hget]; simp), hget]
    simp [hdir]
  · rw [Puzzle.getCell_setCell_ne q r c r' c' cell' he]

theorem applyGuesses_sameFrame (gs : List (ℕ × ℕ × ℤ)) :
    ∀ b : Puzzle, sameFrame (applyGuesses b gs) b := by
  induction gs with
  | nil => intro b; exact sameFrame_refl b
  | cons g gs ih =>
    intro b
    simp only [applyGuesses, List.foldl_cons] at ih ⊢
    refine sameFrame_trans (ih _) ?_
    cases hg : b.getCell g.1 g.2.1 with
    | none => simp only [hg]; exact sameFrame_refl b
    | some cell =>
      simp only [hg]
      exact sameFrame_setCell b g.1 g.2.1 cell _ hg rfl

theorem generateInner_finished_resolve (rules : List Rule)
    (ef lf rows cols : ℕ) (ad : Bool) (cs : List Constraint) (fuel : ℕ) :
    ∀ current base pc reuse mods stats exf gs o p stats',
      pc = computeAllPaths base →
      generateInner rules ef lf rows cols ad cs fuel current base pc reuse
          mods stats exf gs o = some (.finished (some p, stats')) →
      ∃ trace, solve rules ef lf p (some (computeAllPaths p)) false =
          some trace ∧ getFailingConstraint trace cs = none := by
  induction fuel with
  | zero =>
    intro _ _ _ _ _ _ _ _ _ _ _ _ h
    exact Option.noConfusion h
  | succ fuel ih =>
    intro current base pc reuse mods stats exf gs o p stats' hpc h
    simp only [generateInner] at h
    split at h
    next => simp at h
    next trace hsol =>
      split at h
      next hs =>
        split at h
        next => simp at h
        next ft hsol2 =>
          split at h
          next hfc =>
            simp only [Option.some.injEq, InnerOutcome.finished.injEq,
              Prod.mk.injEq] at h
            obtain ⟨h1, -⟩ := h
            subst h1
            have hcp : computeAllPaths (applyGuesses base gs) = pc := by
              rw [hpc]
              exact computeAllPaths_congr (applyGuesses_sameFrame gs base)
            exact ⟨ft, by rw [hcp]; exact hsol2, hfc⟩
          next failing hfc => simp at h
      next hs =>
        split at h
        next hu =>
          repeat' split at h
          all_goals
            first
            | exact ih _ _ _ _ _ _ _ _ _ _ _ hpc h
            | simp at h
        next hu =>
          repeat' split at h
          all_goals
            first
            | exact ih _ _ _ _ _ _ _ _ _ _ _ rfl h
            | simp at h

theorem generateOuter_resolve (rules : List Rule)
    (ef lf innerFuel rows cols : ℕ) (ad : Bool) (cs : List Constraint)
    (ma : ℤ) (fuel : ℕ) :
    ∀ stats exf gs o p stats',
      generateOuter rules ef lf innerFuel rows cols ad cs ma fuel stats exf
          gs o = some (some p, stats') →
      ∃ trace, solve rules ef lf p (some (computeAllPaths p)) false =
          some trace ∧ getFailingConstraint trace cs = none := by
  induction fuel with
  | zero =>
    intro _ _ _ _ _ _ h
    exact Option.noConfusion h
  | succ fuel ih =>
    intro stats exf gs o p stats' h
    simp only [generateOuter] at h
    split at h
    · simp at h
    · split at h
      · exact Option.noConfusion h
      · next result heq =>
          injection h with h1
          subst h1
          exact generateInner_finished_resolve rules ef lf rows cols ad cs
            innerFuel _ _ _ _ _ _ _ _ _ _ _ rfl heq
      · exact ih _ _ _ _ _ _ h

/-- **C2** (amended).  Every puzzle returned by `Generator.generate`
passes every supplied constraint's `check` on the trace of a fresh solver
run over the returned puzzle (path cache recomputed, candidates freshly
initialised).  The status of that run need *not* be SOLVED — `generate`
returns the clean puzzle (arrows plus recorded guesses only) whenever its
final re-solve passes the constraint checks, without inspecting the
re-solve status; see the counterexample. -/
theorem generate_resolve_passes_constraints (rules : List Rule)
    (ef lf innerFuel rows cols : ℕ) (ad : Bool) (cs : List Constraint)
    (ma : ℤ) (af : ℕ) (o : RandOracle) (p : Puzzle)
    (stats : GenerationStats)
    (h : generate rules ef lf innerFuel rows cols ad cs ma af o =
      some (some p, stats)) :
    ∃ trace, solve rules ef lf p (some (computeAllPaths p)) false =
        some trace ∧ getFailingConstraint trace cs = none :=
  generateOuter_resolve rules ef lf innerFuel rows cols ad cs ma af
    {} 0 [] o p stats h

/-- Witness for the amended C2 at a concrete input: the 1×2 generation
run under `exRuleFill` returns `exCleanC2`, whose fresh re-solve trace
fails no constraint (vacuously — the constraint list is empty). -/
theorem generate_resolve_witness :
    ∃ trace, solve [exRuleFill] 30 30 exCleanC2
        (some (computeAllPaths exCleanC2)) false = some trace ∧
      getFailingConstraint trace [] = none :=
  generate_resolve_passes_constraints [exRuleFill] 30 30 30 1 2 false []
    100 8 [1, 3, 0, 1] exCleanC2 exStatsPC (by decide)

/-- **C2** counterexample: the 1×2 generation run under `exRuleFill`
returns the puzzle `exCleanC2` = `[→. ←1]`, but a fresh solver run on it
(freshly initialised candidates) ends UNDERCONSTRAINED, not SOLVED: the
rule that forced the solved state during generation (it needs two
uncommitted cells) can no longer fire, and `generate` never checks the
final status. -/
theorem generate_resolve_counterexample :
    generate [exRuleFill] 30 30 30 1 2 false [] 100 8 [1, 3, 0, 1] =
      some (some exCleanC2, exStatsPC) ∧
    (solve [exRuleFill] 30 30 exCleanC2 (some (computeAllPaths exCleanC2))
        false).map SolverResult.status = some .underconstrained :=
  ⟨by decide, by decide⟩

/-! ### Claim C8: the outward-arrow damping bound -/

theorem mem_gridPositions {rows cols r c : ℕ} :
    (r, c) ∈ gridPositions rows cols ↔ r < rows ∧ c < cols := by
  simp [gridPositions, List.mem_flatMap, List.mem_map, List.mem_range,
    Prod.ext_iff, eq_comm]

theorem gridPositions_nodup (rows cols : ℕ) :
    (gridPositions rows cols).Nodup := by
  induction rows with
  | zero => exact List.nodup_nil
  | succ n ih =>
    have hsplit : gridPositions (n + 1) cols =
        gridPositions n cols ++ (List.range cols).map fun c => (n, c) := by
      simp [gridPositions, List.range_succ]
    rw [hsplit]
    refine List.Nodup.append ih ?_ ?_
    · exact (List.nodup_range cols).map fun a b hab => by
        simpa using congrArg Prod.snd hab
    · intro x hx hx'
      obtain ⟨r, c⟩ := x
      obtain ⟨hr, -⟩ := mem_gridPositions.mp hx
      obtain ⟨c', -, hc'⟩ := List.mem_map.mp hx'
      have : n = r := congrArg Prod.fst hc'
      omega

theorem getElem_not_mem_eraseIdx {α : Type} :
    ∀ (l : List α) (i : ℕ) (y : α), l.Nodup → l[i]? = some y →
      y ∉ l.eraseIdx i
  | [], i, y, _, hy => by simp at hy
  | a :: as, 0, y, hnd, hy => by
    simp only [List.getElem?_cons_zero, Option.some.injEq] at hy
    subst hy
    simpa [List.eraseIdx] using (List.nodup_cons.mp hnd).1
  | a :: as, i + 1, y, hnd, hy => by
    simp only [List.getElem?_cons_succ] at hy
    obtain ⟨ha, hnd'⟩ := List.nodup_cons.mp hnd
    have hymem : y ∈ as := List.getElem?_mem hy
    have hne : y ≠ a := fun h => ha (h ▸ hymem)
    simp only [List.eraseIdx, List.mem_cons]
    rintro (h | h)
    · exact hne h
    · exact getElem_not_mem_eraseIdx as i y hnd' hy h

theorem oracleSample_subset {α : Type} :
    ∀ (k : ℕ) (l : List α) (o : RandOracle),
      (oracleSample k l o).1 ⊆ l
  | 0, _, _ => by simp [oracleSample]
  | _ + 1, [], _ => by simp [oracleSample]
  | k + 1, x :: xs, o => by
    simp only [oracleSample]
    cases hy : (x :: xs)[(oracleNext o).1 % (x :: xs).length]? with
    | none => simp
    | some y =>
      intro z hz
      simp only [List.mem_cons] at hz
      rcases hz with rfl | hz
      · exact List.getElem?_mem hy
      · exact ((x :: xs).eraseIdx_sublist _).subset
          (oracleSample_subset k _ _ hz)

theorem oracleSample_nodup {α : Type} :
    ∀ (k : ℕ) (l : List α) (o : RandOracle), l.Nodup →
      (oracleSample k l o).1.Nodup
  | 0, _, _, _ => List.nodup_nil
  | _ + 1, [], _, _ => List.nodup_nil
  | k + 1, x :: xs, o, hnd => by
    simp only [oracleSample]
    cases hy : (x :: xs)[(oracleNext o).1 % (x :: xs).length]? with
    | none => exact List.nodup_nil
    | some y =>
      refine List.nodup_cons.mpr ⟨fun hmem => ?_, ?_⟩
      · exact getElem_not_mem_eraseIdx _ _ _ hnd hy
          (oracleSample_subset k _ _ hmem)
      · exact oracleSample_nodup k _ _
          (((x :: xs).eraseIdx_sublist _).nodup hnd)

theorem oracleSample_length {α : Type} :
    ∀ (k : ℕ) (l : List α) (o : RandOracle), k ≤ l.length →
      (oracleSample k l o).1.length = k
  | 0, _, _, _ => rfl
  | k + 1, [], _, hk => by simp at hk
  | k + 1, x :: xs, o, hk => by
    simp only [oracleSample]
    have hlt : (oracleNext o).1 % (x :: xs).length < (x :: xs).length :=
      Nat.mod_lt _ (by simp)
    rw [List.getElem?_eq_getElem hlt]
    have hlen : ((x :: xs).eraseIdx
        ((oracleNext o).1 % (x :: xs).length)).length = xs.length := by
      rw [List.length_eraseIdx, if_pos hlt]
      simp
    have hk' : k ≤ xs.length := by simpa using hk
    have hrec := oracleSample_length k
      ((x :: xs).eraseIdx ((oracleNext o).1 % (x :: xs).length))
      (oracleNext o).2 (by rw [hlen]; exact hk')
    exact congrArg (fun n => n + 1) hrec

theorem countP_update_one {α : Type} (f g : α → Bool) :
    ∀ (l : List α) (x : α), l.Nodup → x ∈ l → f x = true → g x = false →
      (∀ y ∈ l, y ≠ x → g y = f y) → l.countP g + 1 = l.countP f
  | [], x, _, hx, _, _, _ => by simp at hx
  | a :: as, x, hnd, hx, hfx, hgx, hcong => by
    obtain ⟨ha, hnd'⟩ := List.nodup_cons.mp hnd
    rcases List.mem_cons.mp hx with rfl | hx'
    · have hsame : as.countP g = as.countP f :=
        List.countP_congr fun y hy => by
          rw [hcong y (List.mem_cons_of_mem _ hy) (fun h => ha (h ▸ hy))]
      simp [List.countP_cons, hfx, hgx, hsame]
    · have hae : a ≠ x := fun h => ha (h ▸ hx')
      have hga : g a = f a := hcong a (List.mem_cons_self a as) hae
      have := countP_update_one f g as x hnd' hx' hfx hgx
        fun y hy hyx => hcong y (List.mem_cons_of_mem _ hy) hyx
      simp only [List.countP_cons, hga]
      omega

/-- Every cell of the grid region carries a cardinal (non-diagonal)
direction. -/
def cardinalOnly (p : Puzzle) : Bool :=
  (gridPositions p.rows p.cols).all fun rc =>
    match p.getCell rc.1 rc.2 with
    | none => true
    | some cell =>
      match cell.direction with
      | .north | .east | .south | .west => true
      | _ => false

theorem flipCell_rows (p : Puzzle) (rc : ℕ × ℕ) :
    (flipCell p rc).rows = p.rows := by
  unfold flipCell
  cases p.getCell rc.1 rc.2 <;> rfl

theorem flipCell_cols (p : Puzzle) (rc : ℕ × ℕ) :
    (flipCell p rc).cols = p.cols := by
  unfold flipCell
  cases p.getCell rc.1 rc.2 <;> rfl

theorem getCell_flipCell_ne (p : Puzzle) (rc rc' : ℕ × ℕ)
    (h : rc ≠ rc') :
    (flipCell p rc).getCell rc'.1 rc'.2 = p.getCell rc'.1 rc'.2 := by
  unfold flipCell
  cases hg : p.getCell rc.1 rc.2 with
  | none => rfl
  | some cell =>
    exact Puzzle.getCell_setCell_ne p rc.1 rc.2 rc'.1 rc'.2 _ (by simpa using h)

theorem getCell_flipCell_self (p : Puzzle) (rc : ℕ × ℕ) (cell : Cell)
    (hg : p.getCell rc.1 rc.2 = some cell) :
    (flipCell p rc).getCell rc.1 rc.2 =
      some { cell with direction := cell.direction.opposite } := by
  unfold flipCell
  rw [hg]
  exact Puzzle.getCell_setCell_self _ _ _ _ (by rw [hg]; simp)

theorem isOutwardCell_congr {p q : Puzzle} (rc : ℕ × ℕ)
    (hr : p.rows = q.rows) (hc : p.cols = q.cols)
    (hg : p.getCell rc.1 rc.2 = q.getCell rc.1 rc.2) :
    isOutwardCell p rc = isOutwardCell q rc := by
  unfold isOutwardCell
  rw [hg, hr, hc]

theorem cardinalOnly_flipCell (p : Puzzle) (rc : ℕ × ℕ)
    (hcard : cardinalOnly p = true) : cardinalOnly (flipCell p rc) = true := by
  unfold cardinalOnly at hcard ⊢
  rw [List.all_eq_true] at hcard ⊢
  intro y hy
  rw [flipCell_rows, flipCell_cols] at hy
  by_cases he : rc = y
  · subst he
    cases hcell : p.getCell rc.1 rc.2 with
    | none =>
      have hflip : flipCell p rc = p := by
        unfold flipCell
        rw [hcell]
      rw [hflip]
      exact hcard rc hy
    | some cell =>
      rw [getCell_flipCell_self p rc cell hcell]
      have hdir := hcard rc hy
      rw [hcell] at hdir
      cases hd : cell.direction <;> simp only [hd] at hdir <;>
        first
        | exact absurd hdir (by decide)
        | rfl
  · rw [getCell_flipCell_ne p rc y he]
    exact hcard y hy

theorem outwardCount_flipCell (p : Puzzle) (rc : ℕ × ℕ)
    (h2r : 2 ≤ p.rows) (h2c : 2 ≤ p.cols)
    (hmem : rc ∈ gridPositions p.rows p.cols)
    (hout : isOutwardCell p rc = true)
    (hcard : cardinalOnly p = true) :
    outwardCount (flipCell p rc) + 1 = outwardCount p := by
  obtain ⟨r, c⟩ := rc
  obtain ⟨hr, hc⟩ := mem_gridPositions.mp hmem
  cases hcell : p.getCell r c with
  | none =>
    simp only [isOutwardCell, hcell] at hout
    exact Bool.noConfusion hout
  | some cell =>
    have hdir : (match cell.direction with
        | .north | .east | .south | .west => true
        | _ => false) = true := by
      have := (List.all_eq_true.mp hcard) (r, c) hmem
      rwa [hcell] at this
    unfold outwardCount
    rw [flipCell_rows, flipCell_cols]
    apply countP_update_one (isOutwardCell p)
      (isOutwardCell (flipCell p (r, c))) _ (r, c)
      (gridPositions_nodup _ _) hmem hout
    · have hget := getCell_flipCell_self p (r, c) cell hcell
      simp only [isOutwardCell, hget, flipCell_rows, flipCell_cols]
      simp only [isOutwardCell, hcell] at hout
      cases hd : cell.direction <;>
        simp only [hd] at hdir hout ⊢ <;>
        first
        | exact absurd hdir (by decide)
        | (simp only [Direction.opposite, Direction.delta] at hout ⊢
           simp [inBounds] at hout ⊢
           omega)
    · intro y hy hne
      exact isOutwardCell_congr y (flipCell_rows p (r, c))
        (flipCell_cols p (r, c))
        (getCell_flipCell_ne p (r, c) y (fun h => hne h.symm))

theorem outwardCount_foldl_flip :
    ∀ (toFlip : List (ℕ × ℕ)) (p : Puzzle), 2 ≤ p.rows → 2 ≤ p.cols →
      cardinalOnly p = true → toFlip.Nodup →
      (∀ rc ∈ toFlip, rc ∈ gridPositions p.rows p.cols ∧
        isOutwardCell p rc = true) →
      outwardCount (toFlip.foldl flipCell p) + toFlip.length = outwardCount p
  | [], p, _, _, _, _, _ => by simp
  | rc :: rest, p, h2r, h2c, hcard, hnd, hall => by
    obtain ⟨hnotmem, hndrest⟩ := List.nodup_cons.mp hnd
    obtain ⟨hmem, hout⟩ := hall rc (List.mem_cons_self _ _)
    have hone := outwardCount_flipCell p rc h2r h2c hmem hout hcard
    have hrest := outwardCount_foldl_flip rest (flipCell p rc)
      (by rw [flipCell_rows]; exact h2r)
      (by rw [flipCell_cols]; exact h2c)
      (cardinalOnly_flipCell p rc hcard)
      hndrest
      (fun y hy => by
        obtain ⟨hym, hyo⟩ := hall y (List.mem_cons_of_mem _ hy)
        have hne : rc ≠ y := fun h => hnotmem (h ▸ hy)
        constructor
        · rw [flipCell_rows, flipCell_cols]; exact hym
        · rw [isOutwardCell_congr y (flipCell_rows p rc)
            (flipCell_cols p rc) (getCell_flipCell_ne p rc y hne)]
          exact hyo)
    simp only [List.foldl_cons, List.length_cons]
    omega

/-- **C8** (amended).  For cardinal-arrow grids with `rows ≥ 2` and
`cols ≥ 2`, `_flip_outward_arrows` drives the number of outward-pointing
cells down to at most `⌊rows·cols·0.10⌋`: the opposite of an outward
cardinal arrow points back into such a grid, so every flip removes one
outward cell.  (On 1×n grids, or when diagonal arrows are allowed, the
single flip pass can leave more outward arrows than the threshold — a
flipped arrow may point straight back out; see the counterexample.) -/
theorem flip_outward_arrows_bound (p : Puzzle) (o : RandOracle)
    (h2r : 2 ≤ p.rows) (h2c : 2 ≤ p.cols)
    (hcard : cardinalOnly p = true) :
    outwardCount (flipOutwardArrows p o).1 ≤ p.rows * p.cols / 10 := by
  have hcount : outwardCount p =
      ((gridPositions p.rows p.cols).filter (isOutwardCell p)).length := by
    rw [outwardCount, List.countP_eq_length_filter]
  simp only [flipOutwardArrows]
  by_cases hgt : ((gridPositions p.rows p.cols).filter
      (isOutwardCell p)).length > p.rows * p.cols / 10
  · rw [if_pos hgt]
    have hk : ((gridPositions p.rows p.cols).filter (isOutwardCell p)).length
        - p.rows * p.cols / 10 ≤
        ((gridPositions p.rows p.cols).filter (isOutwardCell p)).length := by
      omega
    have hlen := oracleSample_length
      (((gridPositions p.rows p.cols).filter (isOutwardCell p)).length
        - p.rows * p.cols / 10)
      ((gridPositions p.rows p.cols).filter (isOutwardCell p)) o hk
    have hnd := oracleSample_nodup
      (((gridPositions p.rows p.cols).filter (isOutwardCell p)).length
        - p.rows * p.cols / 10)
      ((gridPositions p.rows p.cols).filter (isOutwardCell p)) o
      ((gridPositions_nodup p.rows p.cols).filter _)
    have hall : ∀ rc ∈ (oracleSample
        (((gridPositions p.rows p.cols).filter (isOutwardCell p)).length
          - p.rows * p.cols / 10)
        ((gridPositions p.rows p.cols).filter (isOutwardCell p)) o).1,
        rc ∈ gridPositions p.rows p.cols ∧ isOutwardCell p rc = true := by
      intro rc hrc
      have := oracleSample_subset _ _ _ hrc
      exact ⟨(List.mem_filter.mp this).1, (List.mem_filter.mp this).2⟩
    have hfold := outwardCount_foldl_flip _ p h2r h2c hcard hnd hall
    show outwardCount ((oracleSample
        (((gridPositions p.rows p.cols).filter (isOutwardCell p)).length
          - p.rows * p.cols / 10)
        ((gridPositions p.rows p.cols).filter (isOutwardCell p)) o).1.foldl
          flipCell p) ≤ p.rows * p.cols / 10
    omega
  · rw [if_neg hgt]
    show outwardCount p ≤ p.rows * p.cols / 10
    omega

/-- All-southeast 2×2 grid: three cells point out of the grid, and the
flip of a south-east arrow (north-west) can point straight back out. -/
def exPuzzleSE : Puzzle :=
  ⟨2, 2, [[⟨.southEast, none, none⟩, ⟨.southEast, none, none⟩],
          [⟨.southEast, none, none⟩, ⟨.southEast, none, none⟩]]⟩

/-- Cardinal-direction 2×2 grid with all four cells pointing outward. -/
def exPuzzleCard : Puzzle :=
  ⟨2, 2, [[⟨.north, none, none⟩, ⟨.north, none, none⟩],
          [⟨.west, none, none⟩, ⟨.east, none, none⟩]]⟩

/-- Witness for the amended C8 at a concrete input: on the cardinal 2×2
grid with four outward arrows, the damping step leaves at most
`⌊4·0.10⌋ = 0` outward arrows. -/
theorem flip_outward_arrows_witness :
    outwardCount (flipOutwardArrows exPuzzleCard [0, 0, 0, 0]).1 ≤
      exPuzzleCard.rows * exPuzzleCard.cols / 10 :=
  flip_outward_arrows_bound exPuzzleCard [0, 0, 0, 0] (by decide)
    (by decide) (by decide)

/-- **C8** counterexample: on the all-southeast 2×2 grid (a legal
direction assignment for `rows, cols ≥ 1`) the damping step flips all
three outward arrows to north-west, two of which still point out of the
grid: the claimed bound `⌊rows·cols·0.10⌋ = 0` fails. -/
theorem flip_outward_arrows_counterexample :
    outwardCount (flipOutwardArrows exPuzzleSE [0, 0, 0]).1 = 2 ∧
      ¬ (outwardCount (flipOutwardArrows exPuzzleSE [0, 0, 0]).1 ≤
        exPuzzleSE.rows * exPuzzleSE.cols / 10) := by
  exact ⟨by decide, by decide⟩

/-! ### Claim C9: text serialisation (`models.py` to_string / from_string)

Python strings are modelled as their character lists.  `str.splitlines`
is modelled as splitting on `'\n'` (the only line break the serialiser
emits), and `int(ch)` on a single character accepts the ASCII digits. -/

/-- `str(n)` for a Python int: decimal digits, with a leading minus sign
for negative values. -/
def intChars (n : ℤ) : List Char :=
  if n < 0 then '-' :: Nat.toDigits 10 n.natAbs else Nat.toDigits 10 n.natAbs

/-- `Cell.__str__`: the direction glyph followed by the number (or a
period for an uncommitted cell). -/
def Cell.render (cell : Cell) : List Char :=
  cell.direction.glyph ::
    (match cell.number with
     | none => ['.']
     | some n => intChars n)

/-- `sep.join(parts)`. -/
def joinSep (sep : Char) : List (List Char) → List Char
  | [] => []
  | [l] => l
  | l :: ls => l ++ sep :: joinSep sep ls

/-- The `"+----+----+"` border line of `Puzzle.to_string`. -/
def borderChars (cols : ℕ) : List Char :=
  '+' :: (joinSep '+' (List.replicate cols ['-', '-', '-', '-']) ++ ['+'])

/-- One `"| ↑. | ←1 |"` grid row of `Puzzle.to_string`. -/
def rowChars (row : List Cell) : List Char :=
  '|' :: row.flatMap fun cell => [' '] ++ cell.render ++ [' ', '|']

/-- `Puzzle.to_string`: border-interleaved rows joined by newlines, with
a trailing newline. -/
def Puzzle.toText (p : Puzzle) : List Char :=
  joinSep '\n' (borderChars p.cols ::
    p.grid.flatMap fun row => [rowChars row, borderChars p.cols]) ++ ['\n']

/-- ASCII whitespace, as stripped by `str.strip()`. -/
def isPySpace (c : Char) : Bool :=
  c = ' ' ∨ c = '\t' ∨ c = '\n' ∨ c = '\r' ∨ c = '\x0b' ∨ c = '\x0c'

/-- `str.strip(chars)`: drop the matching characters from both ends. -/
def stripWhile (pred : Char → Bool) (cs : List Char) : List Char :=
  ((cs.dropWhile pred).reverse.dropWhile pred).reverse

/-- `str.split(sep)` for a one-character separator. -/
def splitOnChar (sep : Char) : List Char → List (List Char)
  | [] => [[]]
  | c :: cs =>
    if c = sep then [] :: splitOnChar sep cs
    else
      match splitOnChar sep cs with
      | [] => [[c]]
      | h :: t => (c :: h) :: t

/-- `Cell.from_string`: exactly two characters, an arrow glyph and a
digit or period (`int` on a longer slice or other character raises). -/
def Cell.fromText (cs : List Char) : Option Cell :=
  match cs with
  | [d, n] =>
    match Direction.ofGlyph d with
    | none => none
    | some dir =>
      if n = '.' then some ⟨dir, none, none⟩
      else if '0' ≤ n ∧ n ≤ '9' then
        some ⟨dir, some ((n.toNat : ℤ) - 48), none⟩
      else none
  | _ => none

/-- `Puzzle.from_string`: strip, split into lines, drop border lines,
parse each remaining line into cells (strip the outer pipes, split on
pipes, strip each part), then build the `Puzzle` (whose
`__post_init__` raises on a ragged grid). -/
def Puzzle.fromText (text : List Char) : Option Puzzle :=
  let lines := splitOnChar '\n' (stripWhile isPySpace text)
  let contentLines := lines.filter fun l => l.head? ≠ some '+'
  match contentLines.mapM (fun line =>
      (splitOnChar '|' (stripWhile (fun c => c = '|') line)).mapM fun part =>
        Cell.fromText (stripWhile isPySpace part)) with
  | none => none
  | some grid =>
    let rows := grid.length
    let cols := (grid.head?.map List.length).getD 0
    if grid.all fun row => row.length = cols then
      some ⟨rows, cols, grid⟩
    else none

/-- A cell that serialises losslessly: no candidate annotation and a
single-digit (or absent) committed number. -/
def plainCell (cell : Cell) : Bool :=
  cell.candidates = none &&
    (match cell.number with
     | none => true
     | some d => decide (0 ≤ d ∧ d ≤ 9))

/-- All cells of the grid serialise losslessly. -/
def plainCells (p : Puzzle) : Bool :=
  p.grid.all fun row => row.all plainCell

theorem splitOnChar_of_not_mem (sep : Char) :
    ∀ l : List Char, sep ∉ l → splitOnChar sep l = [l]
  | [], _ => rfl
  | c :: cs, h => by
    have hc : ¬ c = sep := fun hh => h (hh ▸ List.mem_cons_self c cs)
    have hcs : sep ∉ cs := fun hh => h (List.mem_cons_of_mem c hh)
    simp only [splitOnChar, if_neg hc, splitOnChar_of_not_mem sep cs hcs]

theorem splitOnChar_append (sep : Char) (cs : List Char) :
    ∀ l : List Char, sep ∉ l →
      splitOnChar sep (l ++ sep :: cs) = l :: splitOnChar sep cs
  | [], _ => by simp [splitOnChar]
  | c :: l, h => by
    have hc : ¬ c = sep := fun hh => h (hh ▸ List.mem_cons_self c l)
    have hl : sep ∉ l := fun hh => h (List.mem_cons_of_mem c hh)
    have ih := splitOnChar_append sep cs l hl
    simp only [List.cons_append, splitOnChar, if_neg hc, List.append_eq, ih]

theorem splitOnChar_joinSep (sep : Char) :
    ∀ ls : List (List Char), ls ≠ [] → (∀ l ∈ ls, sep ∉ l) →
      splitOnChar sep (joinSep sep ls) = ls
  | [], hne, _ => absurd rfl hne
  | [l], _, h => by
    simp only [joinSep]
    exact splitOnChar_of_not_mem sep l (h l (by simp))
  | l :: l' :: ls, _, h => by
    simp only [joinSep]
    rw [splitOnChar_append sep _ l (h l (by simp))]
    rw [splitOnChar_joinSep sep (l' :: ls) (by simp)
      (fun x hx => h x (List.mem_cons_of_mem l hx))]

theorem dropWhile_append_of_all (p : Char → Bool) :
    ∀ pre l : List Char, (∀ c ∈ pre, p c = true) →
      (pre ++ l).dropWhile p = l.dropWhile p
  | [], l, _ => rfl
  | c :: pre, l, h => by
    simp only [List.cons_append, List.dropWhile_cons,
      h c (List.mem_cons_self c pre), if_pos rfl]
    exact dropWhile_append_of_all p pre l
      fun x hx => h x (List.mem_cons_of_mem c hx)

theorem stripWhile_sandwich (p : Char → Bool) (pre mid suf : List Char)
    (hpre : ∀ c ∈ pre, p c = true) (hsuf : ∀ c ∈ suf, p c = true)
    (hh : ∀ c, mid.head? = some c → p c = false)
    (hl : ∀ c, mid.getLast? = some c → p c = false) :
    stripWhile p (pre ++ mid ++ suf) = mid := by
  cases hmid : mid with
  | nil =>
    subst hmid
    unfold stripWhile
    have h1 : ((pre ++ [] ++ suf).dropWhile p) = [] := by
      rw [List.dropWhile_eq_nil_iff]
      intro x hx
      simp only [List.append_nil, List.mem_append] at hx
      rcases hx with hx | hx
      · exact hpre x hx
      · exact hsuf x hx
    rw [h1]
    rfl
  | cons m ms =>
    subst hmid
    unfold stripWhile
    rw [List.append_assoc, dropWhile_append_of_all p pre _ hpre]
    have hm : p m = false := hh m rfl
    rw [List.cons_append, List.dropWhile_cons, hm]
    simp only [Bool.false_eq_true, if_false]
    rw [show m :: (ms ++ suf) = (m :: ms) ++ suf from rfl,
      List.reverse_append]
    rw [dropWhile_append_of_all p suf.reverse _
      (fun c hc => hsuf c (List.mem_reverse.mp hc))]
    cases hrev : (m :: ms).reverse with
    | nil => simp at hrev
    | cons a t =>
      have ha : p a = false := by
        apply hl
        rw [← List.head?_reverse, hrev]
        rfl
      rw [List.dropWhile_cons, ha]
      simp only [Bool.false_eq_true, if_false]
      rw [← hrev, List.reverse_reverse]

theorem joinSep_head? (sep : Char) (l : List Char) (ls : List (List Char))
    (hne : l ≠ []) : (joinSep sep (l :: ls)).head? = l.head? := by
  cases ls with
  | nil => rfl
  | cons l' ls' =>
    simp only [joinSep, List.head?_append]
    cases l with
    | nil => exact absurd rfl hne
    | cons a t => rfl

theorem joinSep_getLast?_concat (sep : Char) :
    ∀ (ls : List (List Char)) (l : List Char), l ≠ [] →
      (joinSep sep (ls ++ [l])).getLast? = l.getLast?
  | [], l, _ => by simp [joinSep]
  | x :: ls, l, hne => by
    have ih := joinSep_getLast?_concat sep ls l hne
    cases hl2 : ls ++ [l] with
    | nil => simp at hl2
    | cons y t =>
      have hunfold : joinSep sep (x :: (ls ++ [l])) =
          x ++ sep :: joinSep sep (ls ++ [l]) := by
        rw [hl2]
        rfl
      rw [show (x :: ls) ++ [l] = x :: (ls ++ [l]) from rfl, hunfold]
      obtain ⟨c, hcl⟩ : ∃ c, l.getLast? = some c := by
        cases l with
        | nil => exact absurd rfl hne
        | cons a t' => exact ⟨(a :: t').getLast (by simp), List.getLast?_eq_getLast _ _⟩
      rw [List.getLast?_append]
      rw [show sep :: joinSep sep (ls ++ [l]) =
        [sep] ++ joinSep sep (ls ++ [l]) from rfl]
      rw [List.getLast?_append, ih, hcl]
      rfl

theorem mem_joinSep (sep : Char) :
    ∀ (ls : List (List Char)) (x : Char), x ∈ joinSep sep ls →
      x = sep ∨ ∃ l ∈ ls, x ∈ l
  | [], x, hx => by simp [joinSep] at hx
  | [l], x, hx => .inr ⟨l, by simp, hx⟩
  | l :: l' :: ls, x, hx => by
    simp only [joinSep, List.mem_append, List.mem_cons] at hx
    rcases hx with hx | hx | hx
    · exact .inr ⟨l, by simp, hx⟩
    · exact .inl hx
    · rcases mem_joinSep sep (l' :: ls) x hx with h | ⟨w, hw, hxw⟩
      · exact .inl h
      · exact .inr ⟨w, List.mem_cons_of_mem l hw, hxw⟩

theorem glyph_props (d : Direction) :
    d.glyph ≠ '\n' ∧ d.glyph ≠ '|' ∧ d.glyph ≠ '+' ∧
      isPySpace d.glyph = false := by
  cases d <;> decide

theorem intChars_digit (d : ℤ) (h0 : 0 ≤ d) (h9 : d ≤ 9) :
    intChars d = [Char.ofNat (48 + d.toNat)] ∧
      Char.ofNat (48 + d.toNat) ∈
        ['0', '1', '2', '3', '4', '5', '6', '7', '8', '9'] := by
  interval_cases d <;> exact ⟨by decide, by decide⟩

theorem render_spec (cell : Cell) (h : plainCell cell = true) :
    ∃ c, cell.render = [cell.direction.glyph, c] ∧
      c ∈ ['.', '0', '1', '2', '3', '4', '5', '6', '7', '8', '9'] := by
  obtain ⟨dir, num, cands⟩ := cell
  cases num with
  | none => exact ⟨'.', rfl, by simp⟩
  | some d =>
    simp only [plainCell, Bool.and_eq_true, decide_eq_true_eq] at h
    obtain ⟨-, h0, h9⟩ := h
    obtain ⟨heq, hmem⟩ := intChars_digit d h0 h9
    refine ⟨Char.ofNat (48 + d.toNat), ?_, by simp [hmem]⟩
    simp only [Cell.render, heq]

theorem digitOrDot_props {c : Char}
    (h : c ∈ ['.', '0', '1', '2', '3', '4', '5', '6', '7', '8', '9']) :
    c ≠ '\n' ∧ c ≠ '|' ∧ isPySpace c = false := by
  fin_cases h <;> decide

theorem fromText_render (cell : Cell) (h : plainCell cell = true) :
    Cell.fromText cell.render = some cell := by
  obtain ⟨dir, num, cands⟩ := cell
  simp only [plainCell, Bool.and_eq_true, decide_eq_true_eq] at h
  obtain ⟨hc, hnum⟩ := h
  subst hc
  cases num with
  | none => cases dir <;> decide
  | some d =>
    simp only [decide_eq_true_eq] at hnum
    obtain ⟨h0, h9⟩ := hnum
    cases dir <;> (interval_cases d <;> decide)

theorem borderChars_head? (cols : ℕ) :
    (borderChars cols).head? = some '+' := rfl

theorem borderChars_ne_nil (cols : ℕ) : borderChars cols ≠ [] := by
  simp [borderChars]

theorem borderChars_getLast? (cols : ℕ) :
    (borderChars cols).getLast? = some '+' := by
  rw [show borderChars cols =
    ('+' :: joinSep '+' (List.replicate cols ['-', '-', '-', '-'])) ++ ['+']
    from rfl]
  exact List.getLast?_concat _

theorem mem_borderChars {cols : ℕ} {x : Char} (hx : x ∈ borderChars cols) :
    x = '+' ∨ x = '-' := by
  simp only [borderChars, List.mem_cons, List.mem_append] at hx
  rcases hx with rfl | hx | hx
  · exact .inl rfl
  · rcases mem_joinSep '+' _ x hx with rfl | ⟨l, hl, hxl⟩
    · exact .inl rfl
    · have := List.eq_of_mem_replicate hl
      subst this
      simp only [List.mem_cons, List.not_mem_nil, or_false] at hxl
      rcases hxl with rfl | rfl | rfl | rfl <;> exact .inr rfl
  · rcases hx with rfl | hx
    · exact .inl rfl
    · simp at hx

theorem rowBlocks_eq :
    ∀ row : List Cell, row ≠ [] →
      row.flatMap (fun cell => [' '] ++ cell.render ++ [' ', '|']) =
        joinSep '|' (row.map fun cell => [' '] ++ cell.render ++ [' '])
          ++ ['|']
  | [], hne => absurd rfl hne
  | [c], _ => by simp [joinSep]
  | c :: c' :: rest, _ => by
    have ih := rowBlocks_eq (c' :: rest) (by simp)
    simp only [List.flatMap_cons] at ih ⊢
    rw [ih]
    simp only [List.map_cons, joinSep]
    simp [List.append_assoc]

theorem rowChars_head? (row : List Cell) :
    (rowChars row).head? = some '|' := rfl

theorem newline_not_mem_rowChars (row : List Cell)
    (hp : ∀ cell ∈ row, plainCell cell = true) :
    '\n' ∉ rowChars row := by
  intro hx
  simp only [rowChars, List.mem_cons, List.mem_flatMap] at hx
  rcases hx with h | ⟨cell, hcell, hxc⟩
  · exact absurd h (by decide)
  · obtain ⟨c, hrender, hcmem⟩ := render_spec cell (hp cell hcell)
    rw [hrender] at hxc
    obtain ⟨hg1, -, -, -⟩ := glyph_props cell.direction
    obtain ⟨hd1, -, -⟩ := digitOrDot_props hcmem
    simp only [List.append_assoc, List.cons_append, List.nil_append,
      List.mem_cons, List.not_mem_nil, or_false] at hxc
    rcases hxc with h | h | h | h | h
    · exact absurd h (by decide)
    · exact hg1 h.symm
    · exact hd1 h.symm
    · exact absurd h (by decide)
    · exact absurd h (by decide)

theorem linesList_concat (cols : ℕ) :
    ∀ grid : List (List Cell), ∃ ls,
      borderChars cols ::
          grid.flatMap (fun row => [rowChars row, borderChars cols]) =
        ls ++ [borderChars cols]
  | [] => ⟨[], rfl⟩
  | r :: rest => by
    obtain ⟨ls, hls⟩ := linesList_concat cols rest
    refine ⟨borderChars cols :: rowChars r :: ls, ?_⟩
    simp only [List.flatMap_cons]
    rw [show borderChars cols ::
        ([rowChars r, borderChars cols] ++
          rest.flatMap fun row => [rowChars row, borderChars cols]) =
      borderChars cols :: rowChars r ::
        (borderChars cols ::
          rest.flatMap fun row => [rowChars row, borderChars cols])
      from rfl]
    rw [hls]
    rfl

theorem mem_linesList {cols : ℕ} {grid : List (List Cell)}
    {l : List Char}
    (hl : l ∈ borderChars cols ::
      grid.flatMap fun row => [rowChars row, borderChars cols]) :
    l = borderChars cols ∨ ∃ row ∈ grid, l = rowChars row := by
  simp only [List.mem_cons, List.mem_flatMap] at hl
  rcases hl with rfl | ⟨row, hrow, hmem⟩
  · exact .inl rfl
  · simp only [List.mem_cons, List.not_mem_nil, or_false] at hmem
    rcases hmem with rfl | rfl
    · exact .inr ⟨row, hrow, rfl⟩
    · exact .inl rfl

theorem filter_linesList (cols : ℕ) :
    ∀ grid : List (List Cell),
      (borderChars cols ::
          grid.flatMap fun row => [rowChars row, borderChars cols]).filter
        (fun l => l.head? ≠ some '+') = grid.map rowChars
  | [] => by simp [List.filter, borderChars_head?]
  | r :: rest => by
    have ih := filter_linesList cols rest
    simp only [List.flatMap_cons, List.map_cons]
    rw [show borderChars cols ::
        ([rowChars r, borderChars cols] ++
          rest.flatMap fun row => [rowChars row, borderChars cols]) =
      borderChars cols :: rowChars r ::
        (borderChars cols ::
          rest.flatMap fun row => [rowChars row, borderChars cols])
      from rfl]
    simp +decide only [List.filter_cons, borderChars_head?, rowChars_head?,
      if_true, if_false]
    simp +decide only [List.filter_cons, borderChars_head?, if_true,
      if_false] at ih
    rw [ih]

theorem mapM_map_eq_some {α β : Type} (f : β → Option α) (g : α → β) :
    ∀ l : List α, (∀ a ∈ l, f (g a) = some a) → (l.map g).mapM f = some l
  | [], _ => rfl
  | a :: l, h => by
    have ih := mapM_map_eq_some f g l
      fun x hx => h x (List.mem_cons_of_mem a hx)
    simp only [List.map_cons, List.mapM_cons, h a (List.mem_cons_self a l),
      ih]
    rfl

theorem parseLine_rowChars (row : List Cell) (hne : row ≠ [])
    (hp : ∀ cell ∈ row, plainCell cell = true) :
    (splitOnChar '|' (stripWhile (fun c => c = '|') (rowChars row))).mapM
      (fun part => Cell.fromText (stripWhile isPySpace part)) = some row := by
  have hrow : rowChars row =
      ['|'] ++ (joinSep '|' (row.map fun cell =>
        [' '] ++ cell.render ++ [' '])) ++ ['|'] := by
    simp only [rowChars, rowBlocks_eq row hne]
    simp [List.append_assoc]
  have hJhead : (joinSep '|' (row.map fun cell =>
      [' '] ++ cell.render ++ [' '])).head? = some ' ' := by
    cases row with
    | nil => exact absurd rfl hne
    | cons r0 rt =>
      rw [List.map_cons, joinSep_head? '|' _ _ (by simp)]
      rfl
  have hJlast : (joinSep '|' (row.map fun cell =>
      [' '] ++ cell.render ++ [' '])).getLast? = some ' ' := by
    rcases List.eq_nil_or_concat row with rfl | ⟨L, b, hLb⟩
    · exact absurd rfl hne
    · rw [hLb, List.concat_eq_append, List.map_append, List.map_singleton,
        joinSep_getLast?_concat '|' _ _ (by simp)]
      rw [show [' '] ++ b.render ++ [' '] =
        ([' '] ++ b.render) ++ [' '] from by simp [List.append_assoc]]
      exact List.getLast?_concat _
  have hstrip : stripWhile (fun c => c = '|') (rowChars row) =
      joinSep '|' (row.map fun cell => [' '] ++ cell.render ++ [' ']) := by
    rw [hrow]
    apply stripWhile_sandwich
    · intro c hc
      simp only [List.mem_singleton] at hc
      subst hc
      decide
    · intro c hc
      simp only [List.mem_singleton] at hc
      subst hc
      decide
    · intro c hc
      rw [hJhead] at hc
      injection hc with hc
      subst hc
      decide
    · intro c hc
      rw [hJlast] at hc
      injection hc with hc
      subst hc
      decide
  have hsplit : splitOnChar '|' (joinSep '|' (row.map fun cell =>
      [' '] ++ cell.render ++ [' '])) =
      row.map fun cell => [' '] ++ cell.render ++ [' '] := by
    apply splitOnChar_joinSep '|' _ (by simpa using hne)
    intro l hl
    obtain ⟨cell, hcell, rfl⟩ := List.mem_map.mp hl
    intro hmem
    obtain ⟨c, hrender, hcmem⟩ := render_spec cell (hp cell hcell)
    rw [hrender] at hmem
    simp only [List.append_assoc, List.cons_append, List.nil_append,
      List.mem_cons, List.not_mem_nil, or_false] at hmem
    obtain ⟨-, hg2, -, -⟩ := glyph_props cell.direction
    obtain ⟨-, hd2, -⟩ := digitOrDot_props hcmem
    rcases hmem with h | h | h | h
    · exact absurd h (by decide)
    · exact hg2 h.symm
    · exact hd2 h.symm
    · exact absurd h (by decide)
  rw [hstrip, hsplit]
  apply mapM_map_eq_some
  intro cell hcell
  obtain ⟨c, hrender, hcmem⟩ := render_spec cell (hp cell hcell)
  have hstripc : stripWhile isPySpace ([' '] ++ cell.render ++ [' ']) =
      cell.render := by
    apply stripWhile_sandwich
    · intro x hx
      simp only [List.mem_singleton] at hx
      subst hx
      decide
    · intro x hx
      simp only [List.mem_singleton] at hx
      subst hx
      decide
    · intro x hx
      rw [hrender] at hx
      injection hx with hx
      subst hx
      exact (glyph_props cell.direction).2.2.2
    · intro x hx
      rw [hrender] at hx
      have : ([cell.direction.glyph, c]).getLast? = some c := rfl
      rw [this] at hx
      injection hx with hx
      subst hx
      exact (digitOrDot_props hcmem).2.2
  rw [hstripc]
  exact fromText_render cell (hp cell hcell)

theorem toText_head? (p : Puzzle) : (Puzzle.toText p).head? = some '+' := by
  show ((joinSep '\n' (borderChars p.cols ::
    p.grid.flatMap fun row => [rowChars row, borderChars p.cols]))
      ++ ['\n']).head? = some '+'
  rw [List.head?_append,
    joinSep_head? '\n' _ _ (borderChars_ne_nil p.cols), borderChars_head?]
  rfl

/-- **C9** (amended).  `from_string ∘ to_string` is the identity on
puzzles whose dimension attributes match the grid, with at least one row
and one column, no candidate annotations and only single-digit committed
numbers.  Outside that domain the round trip genuinely fails
(`to_string` does not serialise candidates, and multi-digit or negative
numbers produce cell strings `from_string` rejects), and `from_string`
also accepts texts that are not renderings of any puzzle — see the
counterexample. -/
theorem text_roundtrip (p : Puzzle) (hd : p.dimsOk) (hr : 1 ≤ p.rows)
    (hc : 1 ≤ p.cols) (hplain : plainCells p = true) :
    Puzzle.fromText (Puzzle.toText p) = some p := by
  have hplain' : ∀ row ∈ p.grid, ∀ cell ∈ row, plainCell cell = true := by
    simp only [plainCells, List.all_eq_true] at hplain
    exact hplain
  have hJlast : (joinSep '\n' (borderChars p.cols ::
      p.grid.flatMap fun row => [rowChars row, borderChars p.cols])).getLast?
      = some '+' := by
    obtain ⟨ls, hls⟩ := linesList_concat p.cols p.grid
    rw [hls, joinSep_getLast?_concat '\n' _ _ (borderChars_ne_nil p.cols),
      borderChars_getLast?]
  have hJhead : (joinSep '\n' (borderChars p.cols ::
      p.grid.flatMap fun row => [rowChars row, borderChars p.cols])).head?
      = some '+' :=
    by rw [joinSep_head? '\n' _ _ (borderChars_ne_nil p.cols),
      borderChars_head?]
  have hstripA : stripWhile isPySpace (Puzzle.toText p) =
      joinSep '\n' (borderChars p.cols ::
        p.grid.flatMap fun row => [rowChars row, borderChars p.cols]) := by
    show stripWhile isPySpace ([] ++ (joinSep '\n' (borderChars p.cols ::
      p.grid.flatMap fun row => [rowChars row, borderChars p.cols]))
        ++ ['\n']) = _
    apply stripWhile_sandwich
    · intro c hcm
      simp at hcm
    · intro c hcm
      simp only [List.mem_singleton] at hcm
      subst hcm
      decide
    · intro c hcm
      rw [hJhead] at hcm
      injection hcm with hcm
      subst hcm
      decide
    · intro c hcm
      rw [hJlast] at hcm
      injection hcm with hcm
      subst hcm
      decide
  have hsplitA : splitOnChar '\n' (joinSep '\n' (borderChars p.cols ::
      p.grid.flatMap fun row => [rowChars row, borderChars p.cols])) =
      borderChars p.cols ::
        p.grid.flatMap fun row => [rowChars row, borderChars p.cols] := by
    apply splitOnChar_joinSep '\n' _ (by simp)
    intro l hl
    rcases mem_linesList hl with rfl | ⟨row, hrow, rfl⟩
    · intro hmem
      rcases mem_borderChars hmem with h | h <;> simp at h
    · exact newline_not_mem_rowChars row (hplain' row hrow)
  have hrows : p.grid.length = p.rows := hd.1
  have hparse : (p.grid.map rowChars).mapM
      (fun line => (splitOnChar '|'
        (stripWhile (fun c => c = '|') line)).mapM
          fun part => Cell.fromText (stripWhile isPySpace part)) =
      some p.grid := by
    apply mapM_map_eq_some
    intro row hrow
    apply parseLine_rowChars row ?_ (hplain' row hrow)
    have hlen := hd.2 row hrow
    intro hnil
    rw [hnil] at hlen
    simp at hlen
    omega
  simp only [Puzzle.fromText]
  rw [hstripA, hsplitA, filter_linesList p.cols p.grid, hparse]
  have hcols : ((p.grid.map List.length).head?.map id).getD 0 = p.cols := by
    cases hg : p.grid with
    | nil => rw [hg] at hrows; simp at hrows; omega
    | cons row rest =>
      simp only [List.map_cons, List.head?_cons, Option.map_some',
        Option.getD_some, id]
      exact hd.2 row (by rw [hg]; exact List.mem_cons_self _ _)
  have hcols' : ((p.grid.head?).map List.length).getD 0 = p.cols := by
    cases hg : p.grid with
    | nil => rw [hg] at hrows; simp at hrows; omega
    | cons row rest =>
      simp only [List.head?_cons, Option.map_some', Option.getD_some]
      exact hd.2 row (by rw [hg]; exact List.mem_cons_self _ _)
  have hall : (p.grid.all fun row =>
      row.length = ((p.grid.head?).map List.length).getD 0) = true := by
    rw [List.all_eq_true]
    intro row hrow
    rw [hcols']
    exact decide_eq_true (hd.2 row hrow)
  show (if p.grid.all (fun row =>
      row.length = ((p.grid.head?).map List.length).getD 0) = true then
      some (⟨p.grid.length, ((p.grid.head?).map List.length).getD 0,
        p.grid⟩ : Puzzle)
    else none) = some p
  rw [if_pos hall, hrows, hcols']

/-- Witness for the amended C9 at a concrete input: the cardinal 2×2
puzzle (annotation-free, single-digit numbers) round-trips through
`to_string` and `from_string`. -/
theorem text_roundtrip_witness :
    Puzzle.fromText (Puzzle.toText exPuzzleCard) = some exPuzzleCard :=
  text_roundtrip exPuzzleCard (by decide) (by decide) (by decide)
    (by decide)

/-- **C9** counterexample: (1) `from_string (to_string p)` loses the
candidate annotations of `exCleanC2`, so the round trip fails on a valid
`Puzzle` value; (2) `from_string` accepts the bare text `"↑1"` — no
border lines, no pipes, no padding, no trailing newline — which is not
`to_string` of any puzzle (every rendering starts with `'+'`), so
parsing does not accept only well-formed puzzle text. -/
theorem text_roundtrip_counterexample :
    Puzzle.fromText (Puzzle.toText exCleanC2) ≠ some exCleanC2 ∧
    Puzzle.fromText ['↑', '1'] =
      some ⟨1, 1, [[⟨.north, some 1, none⟩]]⟩ ∧
    ¬ ∃ q : Puzzle, Puzzle.toText q = ['↑', '1'] := by
  refine ⟨by decide, by decide, ?_⟩
  rintro ⟨q, hq⟩
  have h := toText_head? q
  rw [hq] at h
  exact absurd h (by decide)

end JapaneseArrows
